import Mathlib

/-!
# Verification of the tiered electricity tariff calculator

A shallow embedding of `src/tiered_tariff_calculator.py` and
`src/fixed_rate.py`.  Python floats are modelled by `ℚ`, Python strings
by `List Char`, raised `ValueError`s by the `Except String` monad.
Every definition mirrors the corresponding source function; theorems
about the embedding follow the definitions.
-/

/-! ## Decimal digit helpers

Python renders numbers in decimal (`f"{x:.3f}"`, `f"{x:,.2f}"`,
`str(i)`).  These helpers model that rendering on `ℕ`. -/

/-- The character of a decimal digit `d < 10` (`'0'`–`'9'`). -/
def digitChar (d : ℕ) : Char := Char.ofNat (48 + d)

/-- Fuel-bounded digit rendering; `fuel > n` always suffices since
`n / 10 < n` for `n ≥ 10`. -/
def natToDigitsAux : ℕ → ℕ → List Char
  | 0, _ => []
  | fuel + 1, n =>
    if n < 10 then [digitChar n]
    else natToDigitsAux fuel (n / 10) ++ [digitChar (n % 10)]

/-- The decimal digits of `n`, most significant first (never empty;
`natToDigits 0 = ['0']`). -/
def natToDigits (n : ℕ) : List Char := natToDigitsAux (n + 1) n

/-- The value of a list of decimal digit characters (most significant
first). -/
def digitsVal (l : List Char) : ℕ :=
  l.foldl (fun a c => 10 * a + (c.toNat - 48)) 0

/-- Pad a digit list on the left with `'0'` up to length `k`. -/
def padZeros (k : ℕ) (l : List Char) : List Char :=
  List.replicate (k - l.length) '0' ++ l

/-- Model of Python's fixed-point formatting `f"{q:.kf}"` for `k > 0`
decimal places: sign, integer digits, `'.'`, exactly `k` fraction
digits.  The Python implementation rounds the underlying binary double
to nearest; exact ties (invisible at the inputs this development
evaluates) are modelled by `round`. -/
def fixedChars (k : ℕ) (q : ℚ) : List Char :=
  let n : ℤ := round (q * (10 : ℚ) ^ k)
  let a : ℕ := n.natAbs
  (if n < 0 then ['-'] else []) ++
    natToDigits (a / 10 ^ k) ++ '.' :: padZeros k (natToDigits (a % 10 ^ k))

/-- `f"{q:.3f}"` as a `String`, used in the overflow error message. -/
def formatFixed3 (q : ℚ) : String := String.mk (fixedChars 3 q)

/-! ## Data structures (`tiered_tariff_calculator.py`)

A tier is a pair `(block_kwh, rate)`; `block_kwh = none` models
Python's `None` ("unlimited final block"). -/

/-- `(block_kwh, rate)`: one pricing tier. -/
abbrev Tier := Option ℚ × ℚ

/-- The `TierBreakdown` dataclass. -/
structure TierBreakdown where
  tier_index : ℕ
  kwh : ℚ
  rate : ℚ
  cost : ℚ
deriving Repr, DecidableEq

/-- The dict returned by `calculate_tiered_bill`
(`{"breakdown": ..., "energy_cost": ..., "fixed_fee": ..., "total": ...}`). -/
structure BillResult where
  breakdown : List TierBreakdown
  energy_cost : ℚ
  fixed_fee : ℚ
  total : ℚ
deriving Repr, DecidableEq

/-! ## Validation helpers -/

/-- `_validate_common`: consumption and fixed fee must be `>= 0`. -/
def validate_common (consumption_kwh fixed_fee : ℚ) : Except String Unit :=
  if consumption_kwh < 0 then .error "consumption_kwh must be >= 0"
  else if fixed_fee < 0 then .error "fixed_fee must be >= 0"
  else .ok ()

/-- The per-tier loop of `_validate_tier_list`, carrying the 1-based
index `i` of `enumerate(tier_list, start=1)`.  For each tier the rate
check precedes the block-size check, and the first failure wins. -/
def validateTiersFrom (i : ℕ) : List Tier → Except String Unit
  | [] => .ok ()
  | (block_kwh, rate) :: rest =>
    if rate < 0 then
      .error ("rate for tier " ++ toString i ++ " must be >= 0")
    else
      match block_kwh with
      | some b =>
        if b ≤ 0 then
          .error ("block_kwh for tier " ++ toString i ++
            " must be > 0 or None for unlimited")
        else validateTiersFrom (i + 1) rest
      | none => validateTiersFrom (i + 1) rest

/-- `_validate_tier_list`: non-empty (`if not tier_list`), then the
per-tier checks. -/
def validate_tier_list : List Tier → Except String Unit
  | [] => .error "tiers must be a non-empty list"
  | tier_list => validateTiersFrom 1 tier_list

/-! ## Core computation -/

/-- The tolerance `1e-9` of the completeness check. -/
def tol : ℚ := 1 / 1000000000

/-- `block = remaining if block_kwh is None else min(remaining, block_kwh)`. -/
def blockOf (remaining : ℚ) : Option ℚ → ℚ
  | none => remaining
  | some b => min remaining b

/-- The `for idx, (block_kwh, rate) in enumerate(tier_list, start=1)`
walk of `calculate_tiered_bill`: stops when `remaining <= 0`, otherwise
consumes `blockOf remaining block_kwh` and appends a `TierBreakdown`.
Returns the breakdown together with the final `remaining`. -/
def tierWalk (remaining : ℚ) (idx : ℕ) :
    List Tier → List TierBreakdown × ℚ
  | [] => ([], remaining)
  | (block_kwh, rate) :: rest =>
    if remaining ≤ 0 then ([], remaining)
    else
      let block := blockOf remaining block_kwh
      let res := tierWalk (remaining - block) (idx + 1) rest
      (⟨idx, block, rate, block * rate⟩ :: res.1, res.2)

/-- The message of the completeness ("overflow") error, built from the
`remaining` left after the walk. -/
def overflowMessage (remaining : ℚ) : String :=
  "Consumption exceeds defined tiers by " ++ formatFixed3 remaining ++
    " kWh. Add a final tier with block_kwh=None."

/-- `calculate_tiered_bill`: validation, the tier walk, the
post-walk completeness check against `tol = 1e-9`, then the result
dict with `energy_cost = sum(t.cost for t in breakdown)` and
`total = energy_cost + fixed_fee`. -/
def calculate_tiered_bill (consumption_kwh : ℚ) (tier_list : List Tier)
    (fixed_fee : ℚ) : Except String BillResult :=
  match validate_common consumption_kwh fixed_fee with
  | .error e => .error e
  | .ok _ =>
    match validate_tier_list tier_list with
    | .error e => .error e
    | .ok _ =>
      let res := tierWalk consumption_kwh 1 tier_list
      if tol < res.2 then .error (overflowMessage res.2)
      else
        let energy_cost := (res.1.map TierBreakdown.cost).sum
        .ok ⟨res.1, energy_cost, fixed_fee, energy_cost + fixed_fee⟩

instance {ε α : Type} [DecidableEq ε] [DecidableEq α] :
    DecidableEq (Except ε α) := fun x y =>
  match x, y with
  | .error a, .error b =>
    if h : a = b then isTrue (by rw [h])
    else isFalse (fun he => h (Except.error.inj he))
  | .error _, .ok _ => isFalse (fun he => Except.noConfusion he)
  | .ok _, .error _ => isFalse (fun he => Except.noConfusion he)
  | .ok a, .ok b =>
    if h : a = b then isTrue (by rw [h])
    else isFalse (fun he => h (Except.ok.inj he))

/-- The total kWh of a breakdown (the quantity the spec compares with
the input consumption). -/
def sumKwh (bd : List TierBreakdown) : ℚ := (bd.map TierBreakdown.kwh).sum

/-! ## Fixed-rate calculator (`fixed_rate.py`) -/

/-- `fixed_rate_bill`: non-negativity validation, then
`total_usage * rate + fixed_fee`. -/
def fixed_rate_bill (total_usage rate fixed_fee : ℚ) : Except String ℚ :=
  if total_usage < 0 ∨ rate < 0 ∨ fixed_fee < 0 then
    .error "Inputs must be non-negative."
  else .ok (total_usage * rate + fixed_fee)

/-! ## Python string primitives

Python `str` is modelled as `List Char`. -/

/-- The whitespace stripped by Python's `str.strip()` (ASCII part). -/
def isPyWs (c : Char) : Bool :=
  c = ' ' || c = '\t' || c = '\n' || c = '\r' || c.toNat = 11 || c.toNat = 12

/-- `str.strip()`: drop whitespace at both ends. -/
def pyStrip (l : List Char) : List Char :=
  ((l.dropWhile isPyWs).reverse.dropWhile isPyWs).reverse

/-- `str.split(sep)` for a one-character separator: always returns one
more part than there are separators (`"".split(',') == ['']`). -/
def pySplit (sep : Char) : List Char → List (List Char)
  | [] => [[]]
  | c :: rest =>
    match pySplit sep rest with
    | [] => [[c]]
    | p :: ps => if c = sep then [] :: p :: ps else (c :: p) :: ps

/-! ## Model of Python `float(str)`

`float` strips whitespace, accepts an optional sign, then
`digits [. digits]` or `. digits`, optionally followed by an exponent
`e`/`E` with optional sign.  (`inf`/`nan` spellings and digit-group
underscores, which no tier text uses, are not modelled.) -/

/-- Split a list at the first character satisfying `p`; `none` when no
such character occurs. -/
def splitFirst (p : Char → Bool) : List Char → List Char × Option (List Char)
  | [] => ([], none)
  | c :: rest =>
    if p c then ([], some rest)
    else
      let r := splitFirst p rest
      (c :: r.1, r.2)

/-- The integer-dot-fraction part of a float literal. -/
def parseMantissa (l : List Char) : Option ℚ :=
  match splitFirst (fun c => c = '.') l with
  | (ip, none) =>
    if !ip.isEmpty && ip.all Char.isDigit then some ((digitsVal ip : ℕ) : ℚ)
    else none
  | (ip, some fp) =>
    if (!ip.isEmpty || !fp.isEmpty) && ip.all Char.isDigit && fp.all Char.isDigit then
      some (((digitsVal ip : ℕ) : ℚ) + ((digitsVal fp : ℕ) : ℚ) / 10 ^ fp.length)
    else none

/-- The signed integer exponent of a float literal. -/
def parseExp : List Char → Option ℤ
  | '+' :: rest =>
    if !rest.isEmpty && rest.all Char.isDigit then some ((digitsVal rest : ℕ) : ℤ)
    else none
  | '-' :: rest =>
    if !rest.isEmpty && rest.all Char.isDigit then some (-((digitsVal rest : ℕ) : ℤ))
    else none
  | l =>
    if !l.isEmpty && l.all Char.isDigit then some ((digitsVal l : ℕ) : ℤ)
    else none

/-- A float literal without sign: mantissa, optional exponent. -/
def parseUnsigned (l : List Char) : Option ℚ :=
  match splitFirst (fun c => c = 'e' || c = 'E') l with
  | (m, none) => parseMantissa m
  | (m, some ex) => do
    let mv ← parseMantissa m
    let ev ← parseExp ex
    pure (mv * (10 : ℚ) ^ ev)

/-- A float literal with optional leading sign. -/
def parseSigned : List Char → Option ℚ
  | [] => parseUnsigned []
  | c :: rest =>
    if c = '+' then parseUnsigned rest
    else if c = '-' then (parseUnsigned rest).map (fun q => -q)
    else parseUnsigned (c :: rest)

/-- Model of Python's `float(s)` on a string. -/
def parseFloat (s : List Char) : Option ℚ := parseSigned (pyStrip s)

/-! ## Tier text parsing (`parse_tiers`) -/

/-- The unlimited size tokens of the shorthand grammar, compared
literally (`size_s.strip() in {"*", "None", "null"}`). -/
def unlimitedTokens : List (List Char) := ["*".data, "None".data, "null".data]

/-- One shorthand entry: `part.strip().split('@')` must give exactly
two components `size_s, rate_s`; an unlimited token maps to `none`,
anything else goes through `float`. -/
def parseShorthandPart (part : List Char) : Option Tier :=
  match pySplit '@' (pyStrip part) with
  | [size_s, rate_s] =>
    match (if unlimitedTokens.contains (pyStrip size_s) then some none
           else (parseFloat size_s).map some) with
    | none => none
    | some size =>
      match parseFloat rate_s with
      | none => none
      | some rate => some (size, rate)
  | _ => none

/-- The shorthand `for part in t.split(',')` loop: one tier per part,
in input order, failing as soon as one part fails. -/
def parseShorthandParts : List (List Char) → Option (List Tier)
  | [] => some []
  | part :: rest =>
    match parseShorthandPart part with
    | none => none
    | some t =>
      match parseShorthandParts rest with
      | none => none
      | some ts => some (t :: ts)

/-- JSON whitespace. -/
def isJsonWs (c : Char) : Bool := c = ' ' || c = '\t' || c = '\n' || c = '\r'

/-- Skip JSON whitespace. -/
def skipWs (l : List Char) : List Char := l.dropWhile isJsonWs

/-- The characters a JSON number token is made of. -/
def isNumChar (c : Char) : Bool :=
  c.isDigit || c = '.' || c = '-' || c = '+' || c = 'e' || c = 'E'

/-- A JSON number at the head of the input: the maximal run of number
characters, valued like a float literal; returns the unconsumed rest. -/
def jsonNumber (l : List Char) : Option (ℚ × List Char) :=
  let tok := l.takeWhile isNumChar
  if tok.isEmpty then none
  else (parseFloat tok).map (fun q => (q, l.dropWhile isNumChar))

/-- A JSON array element as `parse_tiers` consumes it: `null` (the
unlimited sentinel) or a number. -/
def jsonElement (l : List Char) : Option (Option ℚ × List Char) :=
  if l.take 4 = "null".data then some (none, l.drop 4)
  else (jsonNumber l).map (fun p => (some p.1, p.2))

/-- Expect a single character at the head of the input. -/
def expectChar (c : Char) : List Char → Option (List Char)
  | x :: rest => if x = c then some rest else none
  | [] => none

/-- A two-element JSON array `[size_or_null, rate]`, the only pair
shape `for pair in data: size, rate = pair` accepts. -/
def jsonPair (l : List Char) : Option (Tier × List Char) :=
  match expectChar '[' (skipWs l) with
  | none => none
  | some r =>
    match jsonElement (skipWs r) with
    | none => none
    | some (size, r2) =>
      match expectChar ',' (skipWs r2) with
      | none => none
      | some r3 =>
        match jsonNumber (skipWs r3) with
        | none => none
        | some (rate, r4) =>
          match expectChar ']' (skipWs r4) with
          | none => none
          | some r5 => some ((size, rate), r5)

/-- The comma-separated pairs of the outer JSON array, up to and
including the closing `']'`; `fuel` bounds the number of pairs (each
pair consumes at least one character, so `l.length + 1` suffices). -/
def jsonPairs (fuel : ℕ) (l : List Char) : Option (List Tier) :=
  match fuel with
  | 0 => none
  | fuel + 1 =>
    match jsonPair l with
    | none => none
    | some (t, rest) =>
      match expectChar ']' (skipWs rest) with
      | some r2 => if (skipWs r2).isEmpty then some [t] else none
      | none =>
        match expectChar ',' (skipWs rest) with
        | some r2 => (jsonPairs fuel r2).map (fun ts => t :: ts)
        | none => none

/-- Model of `json.loads` restricted to the shape `parse_tiers`
consumes — a JSON array of 2-element `[size_or_null, rate]` arrays —
composed with the `(None if size is None else float(size), float(rate))`
conversion loop.  Any other JSON (or trailing text) is an error, as it
is in the source (either `json.loads` itself or the tuple unpacking /
`float` coercions raise). -/
def jsonParseTiers (l : List Char) : Option (List Tier) :=
  match expectChar '[' (skipWs l) with
  | none => none
  | some r =>
    match expectChar ']' (skipWs r) with
    | some r2 => if (skipWs r2).isEmpty then some [] else none
    | none => jsonPairs ((skipWs r).length + 1) (skipWs r)

/-- `parse_tiers`: empty text is an error; text whose strip starts with
`'['` takes the JSON branch, everything else the shorthand branch
(split on `','`, one tier per part).  The exception texts of the
builtins (`json.JSONDecodeError`, unpacking and `float` `ValueError`s)
are abstracted to fixed messages. -/
def parse_tiers (text : List Char) : Except String (List Tier) :=
  if text.isEmpty then .error "tiers text is empty"
  else
    let t := pyStrip text
    if t.head? = some '[' then
      match jsonParseTiers t with
      | some out => .ok out
      | none => .error "invalid JSON tier list"
    else
      match parseShorthandParts (pySplit ',' t) with
      | some out => .ok out
      | none => .error "invalid shorthand tier entry"

/-! ## Presentation helpers (`format_currency`, `format_breakdown`) -/

/-- Thousands grouping as Python's `","` format option does it, on the
reversed digit string: groups of three from the least significant end. -/
def group3Rev : List Char → List Char
  | a :: b :: c :: d :: rest => a :: b :: c :: ',' :: group3Rev (d :: rest)
  | l => l

/-- Thousands grouping of a digit string (most significant first). -/
def group3 (ds : List Char) : List Char := (group3Rev ds.reverse).reverse

/-- The text of `f"{q:,.2f}"`: sign, comma-grouped integer digits,
`'.'`, exactly two fraction digits (ties of the underlying binary
rounding modelled by `round`). -/
def commaFixed2 (q : ℚ) : List Char :=
  let n : ℤ := round (q * 100)
  let a : ℕ := n.natAbs
  (if n < 0 then ['-'] else []) ++
    group3 (natToDigits (a / 100)) ++ '.' :: padZeros 2 (natToDigits (a % 100))

/-- `format_currency`: `f"{symbol}{value:,.2f}"`. -/
def format_currency (value : ℚ) (symbol : List Char) : List Char :=
  symbol ++ commaFixed2 value

/-- One entry of the dict list `format_breakdown` renders.  `cost` is
optional because the source reads it with
`item.get("cost", kwh * rate)`; the other keys are read with defaults
too but every caller-visible entry carries them, so they are modelled
as present. -/
structure FormatItem where
  tier : ℕ
  kwh : ℚ
  rate : ℚ
  cost : Option ℚ
deriving Repr, DecidableEq

/-- The argument of `format_breakdown`: the result dict (or a
hand-built one). -/
structure FormatInput where
  breakdown : List FormatItem
  energy_cost : ℚ
  fixed_fee : ℚ
  total : ℚ
deriving Repr, DecidableEq

/-- A `BillResult` viewed as `format_breakdown` input (the dicts built
by `as_dict` always carry their cost). -/
def billAsFormatInput (r : BillResult) : FormatInput :=
  ⟨r.breakdown.map (fun t => ⟨t.tier_index, t.kwh, t.rate, some t.cost⟩),
    r.energy_cost, r.fixed_fee, r.total⟩

/-- The per-entry line
`f"  Tier {tier}: {kwh:.3f} kWh Ã— {format_currency(rate, s)} = {format_currency(cost, s)}"`.
The separator between the kWh figure and the rate is the literal
character pair `U+00C3 U+2014` ("Ã—") present in the source
file (a mojibake encoding of the multiplication sign). -/
def entryLine (sym : List Char) (item : FormatItem) : List Char :=
  "  Tier ".data ++ natToDigits item.tier ++ ": ".data ++
    fixedChars 3 item.kwh ++ " kWh Ã— ".data ++
    format_currency item.rate sym ++ " = ".data ++
    format_currency (item.cost.getD (item.kwh * item.rate)) sym

/-- `format_breakdown`: the header line, one line per entry, a blank
line, the three total lines — joined with the source's literal
separator `"/n"`. -/
def format_breakdown (result : FormatInput) (currency_symbol : List Char) :
    List Char :=
  List.intercalate "/n".data
    ("Breakdown:".data ::
      result.breakdown.map (entryLine currency_symbol) ++
      [[]] ++
      ["Energy cost = ".data ++ format_currency result.energy_cost currency_symbol] ++
      ["Fixed fee   = ".data ++ format_currency result.fixed_fee currency_symbol] ++
      ["Total bill  = ".data ++ format_currency result.total currency_symbol])

example : calculate_tiered_bill 350 [(some 100, 1/5), (some 200, 3/10), (none, 2/5)] 10 =
    .ok ⟨[⟨1, 100, 1/5, 20⟩, ⟨2, 200, 3/10, 60⟩, ⟨3, 50, 2/5, 20⟩], 100, 10, 110⟩ := by
  norm_num [calculate_tiered_bill, validate_common, validate_tier_list,
    validateTiersFrom, tierWalk, blockOf, tol, min_def]

example : formatFixed3 1 = "1.000" := by
  have h : round ((1 : ℚ) * (10 : ℚ) ^ 3) = 1000 := by norm_num [round_eq]
  simp only [formatFixed3, fixedChars, h]
  decide

example : calculate_tiered_bill 101 [(some 100, 1/5)] 0 =
    .error "Consumption exceeds defined tiers by 1.000 kWh. Add a final tier with block_kwh=None." := by
  have h1 : calculate_tiered_bill 101 [(some 100, 1/5)] 0 =
      .error (overflowMessage 1) := by
    norm_num [calculate_tiered_bill, validate_common, validate_tier_list,
      validateTiersFrom, tierWalk, blockOf, tol, min_def]
  have h2 : overflowMessage 1 =
      "Consumption exceeds defined tiers by 1.000 kWh. Add a final tier with block_kwh=None." := by
    have h : round ((1 : ℚ) * (10 : ℚ) ^ 3) = 1000 := by norm_num [round_eq]
    simp only [overflowMessage, formatFixed3, fixedChars, h]
    decide
  rw [h1, h2]

example : fixed_rate_bill 300 (1/4) 10 = .ok 85 := by
  norm_num [fixed_rate_bill]

/-! ## Lemmas about the tier walk -/

lemma tierWalk_nil (r : ℚ) (i : ℕ) : tierWalk r i [] = ([], r) := rfl

lemma tierWalk_cons (r : ℚ) (i : ℕ) (bk : Option ℚ) (rt : ℚ)
    (rest : List Tier) :
    tierWalk r i ((bk, rt) :: rest) =
      if r ≤ 0 then ([], r)
      else (⟨i, blockOf r bk, rt, blockOf r bk * rt⟩ ::
          (tierWalk (r - blockOf r bk) (i + 1) rest).1,
        (tierWalk (r - blockOf r bk) (i + 1) rest).2) := rfl

lemma blockOf_le (r : ℚ) (bk : Option ℚ) : blockOf r bk ≤ r := by
  cases bk with
  | none => exact le_refl r
  | some b => exact min_le_left r b

lemma tierWalk_zero (i : ℕ) (tl : List Tier) : tierWalk 0 i tl = ([], 0) := by
  cases tl with
  | nil => rfl
  | cons t rest =>
    obtain ⟨bk, rt⟩ := t
    rw [tierWalk_cons]
    simp

lemma tierWalk_rem_nonneg (tl : List Tier) (r : ℚ) (i : ℕ) (h : 0 ≤ r) :
    0 ≤ (tierWalk r i tl).2 := by
  induction tl generalizing r i with
  | nil => simpa [tierWalk_nil]
  | cons t rest ih =>
    obtain ⟨bk, rt⟩ := t
    rw [tierWalk_cons]
    by_cases hr : r ≤ 0
    · simpa [hr]
    · simp only [hr, if_false]
      exact ih (r - blockOf r bk) (i + 1) (by linarith [blockOf_le r bk])

@[simp] lemma sumKwh_nil : sumKwh [] = 0 := rfl

@[simp] lemma sumKwh_cons (e : TierBreakdown) (l : List TierBreakdown) :
    sumKwh (e :: l) = e.kwh + sumKwh l := by
  simp [sumKwh]

lemma tierWalk_sum (tl : List Tier) (r : ℚ) (i : ℕ) :
    sumKwh (tierWalk r i tl).1 = r - (tierWalk r i tl).2 := by
  induction tl generalizing r i with
  | nil => simp [tierWalk_nil]
  | cons t rest ih =>
    obtain ⟨bk, rt⟩ := t
    rw [tierWalk_cons]
    by_cases hr : r ≤ 0
    · simp [hr]
    · simp only [hr, if_false, sumKwh_cons]
      rw [ih (r - blockOf r bk) (i + 1)]
      ring

lemma tierWalk_length_le (tl : List Tier) (r : ℚ) (i : ℕ) :
    (tierWalk r i tl).1.length ≤ tl.length := by
  induction tl generalizing r i with
  | nil => simp [tierWalk_nil]
  | cons t rest ih =>
    obtain ⟨bk, rt⟩ := t
    rw [tierWalk_cons]
    by_cases hr : r ≤ 0
    · simp [hr]
    · simp only [hr, if_false, List.length_cons]
      exact Nat.succ_le_succ (ih (r - blockOf r bk) (i + 1))

lemma tierWalk_ne_nil_pos (tl : List Tier) (r : ℚ) (i : ℕ)
    (h : (tierWalk r i tl).1 ≠ []) : 0 < r := by
  by_contra hr
  push_neg at hr
  apply h
  cases tl with
  | nil => rfl
  | cons t rest =>
    obtain ⟨bk, rt⟩ := t
    rw [tierWalk_cons]
    simp [hr]

/-- The default entry used with `List.getD` in positional statements. -/
def dfltEntry : TierBreakdown := ⟨0, 0, 0, 0⟩

/-- The default tier used with `List.getD` in positional statements. -/
def dfltTier : Tier := (none, 0)

lemma tierWalk_getD (tl : List Tier) (r : ℚ) (i : ℕ) (k : ℕ)
    (hk : k < (tierWalk r i tl).1.length) (hk2 : k < tl.length) :
    ((tierWalk r i tl).1.getD k dfltEntry).tier_index = i + k ∧
    ((tierWalk r i tl).1.getD k dfltEntry).rate = (tl.getD k dfltTier).2 ∧
    ((tierWalk r i tl).1.getD k dfltEntry).cost =
      ((tierWalk r i tl).1.getD k dfltEntry).kwh *
        ((tierWalk r i tl).1.getD k dfltEntry).rate ∧
    ((tierWalk r i tl).1.getD k dfltEntry).kwh =
      blockOf (r - sumKwh ((tierWalk r i tl).1.take k)) (tl.getD k dfltTier).1 := by
  induction tl generalizing r i k with
  | nil => simp at hk2
  | cons t rest ih =>
    obtain ⟨bk, rt⟩ := t
    by_cases hr : r ≤ 0
    · rw [tierWalk_cons] at hk
      simp [hr] at hk
    · have hwalk : tierWalk r i ((bk, rt) :: rest) =
        (⟨i, blockOf r bk, rt, blockOf r bk * rt⟩ ::
            (tierWalk (r - blockOf r bk) (i + 1) rest).1,
          (tierWalk (r - blockOf r bk) (i + 1) rest).2) := by
        rw [tierWalk_cons]; simp [hr]
      rw [hwalk]
      cases k with
      | zero =>
        simp [blockOf]
      | succ k =>
        have hk' : k < (tierWalk (r - blockOf r bk) (i + 1) rest).1.length := by
          rw [hwalk] at hk
          simpa using hk
        have hk2' : k < rest.length := by simpa using hk2
        obtain ⟨h1, h2, h3, h4⟩ := ih (r - blockOf r bk) (i + 1) k hk' hk2'
        refine ⟨?_, ?_, ?_, ?_⟩
        · simpa [Nat.add_assoc, Nat.add_comm 1 k] using h1
        · simpa using h2
        · simpa using h3
        · simp only [List.getD_cons_succ, List.take_succ_cons, sumKwh_cons]
          have heq : r - (blockOf r bk +
              sumKwh ((tierWalk (r - blockOf r bk) (i + 1) rest).1.take k)) =
              r - blockOf r bk -
              sumKwh ((tierWalk (r - blockOf r bk) (i + 1) rest).1.take k) := by
            ring
          rw [heq]
          exact h4

lemma tierWalk_full (tl : List Tier) (r : ℚ) (i : ℕ) (k : ℕ)
    (hk : k + 1 < (tierWalk r i tl).1.length) (b : ℚ)
    (hb : (tl.getD k dfltTier).1 = some b) :
    ((tierWalk r i tl).1.getD k dfltEntry).kwh = b := by
  induction tl generalizing r i k with
  | nil =>
    rw [tierWalk_nil] at hk
    simp at hk
  | cons t rest ih =>
    obtain ⟨bk, rt⟩ := t
    by_cases hr : r ≤ 0
    · rw [tierWalk_cons] at hk
      simp [hr] at hk
    · have hwalk : tierWalk r i ((bk, rt) :: rest) =
        (⟨i, blockOf r bk, rt, blockOf r bk * rt⟩ ::
            (tierWalk (r - blockOf r bk) (i + 1) rest).1,
          (tierWalk (r - blockOf r bk) (i + 1) rest).2) := by
        rw [tierWalk_cons]; simp [hr]
      rw [hwalk]
      cases k with
      | zero =>
        -- the next tier produced an entry, so this one was filled whole
        have hne : (tierWalk (r - blockOf r bk) (i + 1) rest).1 ≠ [] := by
          rw [hwalk] at hk
          simp only [List.length_cons] at hk
          intro hnil
          rw [hnil] at hk
          simp at hk
        have hpos : 0 < r - blockOf r bk :=
          tierWalk_ne_nil_pos rest (r - blockOf r bk) (i + 1) hne
        have hbk : bk = some b := by simpa [dfltTier] using hb
        subst hbk
        have hlt : min r b < r := by
          simp only [blockOf] at hpos
          linarith
        have hmin : min r b = b := by
          rcases min_cases r b with ⟨h1, _⟩ | ⟨h1, _⟩
          · rw [h1] at hlt; exact absurd hlt (lt_irrefl r)
          · exact h1
        simp [blockOf, hmin]
      | succ k =>
        have hk' : k + 1 < (tierWalk (r - blockOf r bk) (i + 1) rest).1.length := by
          rw [hwalk] at hk
          simpa using hk
        have hb' : (rest.getD k dfltTier).1 = some b := by simpa using hb
        simpa using ih (r - blockOf r bk) (i + 1) k hk' hb'

lemma tierWalk_unlimited (tl : List Tier) (k : ℕ) (hk : k < tl.length)
    (hnone : (tl.get ⟨k, hk⟩).1 = none) (r : ℚ) (i : ℕ) (hr : 0 ≤ r) :
    (tierWalk r i tl).2 = 0 ∧ (tierWalk r i tl).1.length ≤ k + 1 := by
  induction tl generalizing k r i with
  | nil => simp at hk
  | cons t rest ih =>
    obtain ⟨bk, rt⟩ := t
    by_cases hrz : r ≤ 0
    · rw [tierWalk_cons]
      simp only [hrz, if_true]
      exact ⟨le_antisymm hrz hr, by simp⟩
    · have hwalk : tierWalk r i ((bk, rt) :: rest) =
        (⟨i, blockOf r bk, rt, blockOf r bk * rt⟩ ::
            (tierWalk (r - blockOf r bk) (i + 1) rest).1,
          (tierWalk (r - blockOf r bk) (i + 1) rest).2) := by
        rw [tierWalk_cons]; simp [hrz]
      cases k with
      | zero =>
        have hbk : bk = none := hnone
        subst hbk
        have hblock : blockOf r none = r := rfl
        rw [hwalk, hblock]
        rw [show r - r = 0 by ring, tierWalk_zero]
        simp
      | succ k =>
        have hk' : k < rest.length := by simpa using hk
        have hnone' : (rest.get ⟨k, hk'⟩).1 = none := by simpa using hnone
        obtain ⟨h1, h2⟩ := ih k hk' hnone' (r - blockOf r bk) (i + 1)
          (by linarith [blockOf_le r bk])
        rw [hwalk]
        exact ⟨h1, by simpa using Nat.succ_le_succ h2⟩

/-! ## Inversion lemmas for `calculate_tiered_bill` -/

lemma validate_common_ok {c f : ℚ} (hc : 0 ≤ c) (hf : 0 ≤ f) :
    validate_common c f = .ok () := by
  simp [validate_common, not_lt_of_ge hc, not_lt_of_ge hf]

lemma calculate_tiered_bill_eq_ok {c f : ℚ} {tl : List Tier}
    (h1 : validate_common c f = .ok ())
    (h2 : validate_tier_list tl = .ok ())
    (h3 : ¬ tol < (tierWalk c 1 tl).2) :
    calculate_tiered_bill c tl f =
      .ok ⟨(tierWalk c 1 tl).1, ((tierWalk c 1 tl).1.map TierBreakdown.cost).sum,
        f, ((tierWalk c 1 tl).1.map TierBreakdown.cost).sum + f⟩ := by
  unfold calculate_tiered_bill
  rw [h1, h2]
  simp [h3]

lemma calculate_tiered_bill_eq_error {c f : ℚ} {tl : List Tier}
    (h1 : validate_common c f = .ok ())
    (h2 : validate_tier_list tl = .ok ())
    (h3 : tol < (tierWalk c 1 tl).2) :
    calculate_tiered_bill c tl f = .error (overflowMessage (tierWalk c 1 tl).2) := by
  unfold calculate_tiered_bill
  rw [h1, h2]
  simp [h3]

lemma calculate_tiered_bill_ok_inv {c f : ℚ} {tl : List Tier} {res : BillResult}
    (h : calculate_tiered_bill c tl f = .ok res) :
    validate_common c f = .ok () ∧ validate_tier_list tl = .ok () ∧
    ¬ tol < (tierWalk c 1 tl).2 ∧
    res = ⟨(tierWalk c 1 tl).1, ((tierWalk c 1 tl).1.map TierBreakdown.cost).sum,
      f, ((tierWalk c 1 tl).1.map TierBreakdown.cost).sum + f⟩ := by
  unfold calculate_tiered_bill at h
  cases hvc : validate_common c f with
  | error e => rw [hvc] at h; exact absurd h (by simp)
  | ok u =>
    rw [hvc] at h
    cases hvt : validate_tier_list tl with
    | error e => rw [hvt] at h; exact absurd h (by simp)
    | ok v =>
      rw [hvt] at h
      by_cases ho : tol < (tierWalk c 1 tl).2
      · simp only [ho, if_true] at h
        exact absurd h (by simp)
      · simp only [ho, if_false] at h
        cases u; cases v
        exact ⟨rfl, rfl, ho, (Except.ok.inj h).symm⟩

lemma validate_common_nonneg {c f : ℚ} (h : validate_common c f = .ok ()) :
    0 ≤ c ∧ 0 ≤ f := by
  by_contra hcon
  rw [validate_common] at h
  rcases not_and_or.mp hcon with hc | hf
  · push_neg at hc
    simp [hc] at h
  · push_neg at hf
    rcases lt_or_ge c 0 with hc | hc
    · simp [hc] at h
    · simp [not_lt_of_ge hc, hf] at h

/-! ## Claim theorems: the tiered engine -/

/-- C1: whenever `calculate_tiered_bill` succeeds, the breakdown's kWh
sum equals the input consumption within `1e-9`, `energy_cost` is the
sum of the entry costs, and `total = energy_cost + fixed_fee`. -/
theorem c1_success_invariants (c f : ℚ) (tl : List Tier) (res : BillResult)
    (h : calculate_tiered_bill c tl f = .ok res) :
    |sumKwh res.breakdown - c| ≤ 1 / 1000000000 ∧
    res.energy_cost = (res.breakdown.map TierBreakdown.cost).sum ∧
    res.fixed_fee = f ∧
    res.total = res.energy_cost + f := by
  obtain ⟨hvc, _, ho, hres⟩ := calculate_tiered_bill_ok_inv h
  obtain ⟨hc, _⟩ := validate_common_nonneg hvc
  subst hres
  refine ⟨?_, rfl, rfl, rfl⟩
  have hsum := tierWalk_sum tl c 1
  have hnn := tierWalk_rem_nonneg tl c 1 hc
  push_neg at ho
  rw [hsum]
  rw [show c - (tierWalk c 1 tl).2 - c = -(tierWalk c 1 tl).2 by ring, abs_neg,
    abs_of_nonneg hnn]
  simpa [tol] using ho

/-- Witness for C1 at scenario 1 of the spec. -/
theorem c1_witness :
    |sumKwh ([⟨1, 100, 1/5, 20⟩, ⟨2, 200, 3/10, 60⟩, ⟨3, 50, 2/5, 20⟩] :
        List TierBreakdown) - 350| ≤ 1 / 1000000000 ∧
    (100 : ℚ) = (([⟨1, 100, 1/5, 20⟩, ⟨2, 200, 3/10, 60⟩, ⟨3, 50, 2/5, 20⟩] :
        List TierBreakdown).map TierBreakdown.cost).sum ∧
    (10 : ℚ) = 10 ∧ (110 : ℚ) = 100 + 10 := by
  have h := c1_success_invariants 350 10
    [(some 100, 1/5), (some 200, 3/10), (none, 2/5)]
    ⟨[⟨1, 100, 1/5, 20⟩, ⟨2, 200, 3/10, 60⟩, ⟨3, 50, 2/5, 20⟩], 100, 10, 110⟩
    (by norm_num [calculate_tiered_bill, validate_common, validate_tier_list,
      validateTiersFrom, tierWalk, blockOf, tol, min_def])
  exact h

/-- C2: on validated inputs the only error `calculate_tiered_bill` can
raise is the completeness error, raised exactly when the `remaining`
left after the full tier walk exceeds `1e-9`; its message reports that
excess to three decimal places and advises a final unlimited tier. -/
theorem c2_overflow_iff (c f : ℚ) (tl : List Tier)
    (hc : 0 ≤ c) (hf : 0 ≤ f) (hv : validate_tier_list tl = .ok ()) :
    ((∃ e, calculate_tiered_bill c tl f = .error e) ↔
      tol < (tierWalk c 1 tl).2) ∧
    (tol < (tierWalk c 1 tl).2 →
      calculate_tiered_bill c tl f =
        .error ("Consumption exceeds defined tiers by " ++
          formatFixed3 (tierWalk c 1 tl).2 ++
          " kWh. Add a final tier with block_kwh=None.")) := by
  have hvc := validate_common_ok hc hf
  constructor
  · constructor
    · rintro ⟨e, he⟩
      by_contra ho
      rw [calculate_tiered_bill_eq_ok hvc hv ho] at he
      exact Except.noConfusion he
    · intro ho
      exact ⟨_, calculate_tiered_bill_eq_error hvc hv ho⟩
  · intro ho
    exact calculate_tiered_bill_eq_error hvc hv ho

/-- Witness for C2 at scenario 3 of the spec: consumption 101 against a
single 100 kWh tier overflows by exactly 1.000 kWh. -/
theorem c2_witness :
    calculate_tiered_bill 101 [(some 100, 1/5)] 0 =
      .error "Consumption exceeds defined tiers by 1.000 kWh. Add a final tier with block_kwh=None." := by
  have hrem : (tierWalk 101 1 [(some 100, 1/5)]).2 = 1 := by
    norm_num [tierWalk, blockOf, min_def]
  have h := (c2_overflow_iff 101 0 [(some 100, 1/5)] (by norm_num) le_rfl
    (by norm_num [validate_tier_list, validateTiersFrom])).2
    (by rw [hrem]; norm_num [tol])
  rw [hrem] at h
  have hmsg : formatFixed3 1 = "1.000" := by
    have hr : round ((1 : ℚ) * (10 : ℚ) ^ 3) = 1000 := by norm_num [round_eq]
    simp only [formatFixed3, fixedChars, hr]
    decide
  rw [hmsg] at h
  exact h

/-- C5: zero consumption always succeeds with an empty breakdown, zero
energy cost and `total = fixed_fee`. -/
theorem c5_zero_consumption (f : ℚ) (tl : List Tier) (hf : 0 ≤ f)
    (hv : validate_tier_list tl = .ok ()) :
    ∃ res, calculate_tiered_bill 0 tl f = .ok res ∧
      res.breakdown = [] ∧ res.energy_cost = 0 ∧ res.total = f := by
  have hvc := validate_common_ok le_rfl hf
  have hw : tierWalk 0 1 tl = ([], 0) := tierWalk_zero 1 tl
  have ho : ¬ tol < (tierWalk 0 1 tl).2 := by
    rw [hw]
    norm_num [tol]
  refine ⟨_, calculate_tiered_bill_eq_ok hvc hv ho, ?_, ?_, ?_⟩
  · simp [hw]
  · simp [hw]
  · simp [hw]

/-- Witness for C5 at scenario 2 of the spec. -/
theorem c5_witness :
    ∃ res, calculate_tiered_bill 0 [(some 100, 1/5), (none, 3/10)] 5 = .ok res ∧
      res.breakdown = [] ∧ res.energy_cost = 0 ∧ res.total = 5 :=
  c5_zero_consumption 5 [(some 100, 1/5), (none, 3/10)] (by norm_num)
    (by norm_num [validate_tier_list, validateTiersFrom])

/-- C9: `fixed_rate_bill` returns exactly
`total_usage * rate + fixed_fee` on non-negative inputs, and a single
"Inputs must be non-negative." error when any input is negative. -/
theorem c9_fixed_rate (u r f : ℚ) :
    (0 ≤ u → 0 ≤ r → 0 ≤ f → fixed_rate_bill u r f = .ok (u * r + f)) ∧
    (u < 0 ∨ r < 0 ∨ f < 0 →
      fixed_rate_bill u r f = .error "Inputs must be non-negative.") := by
  constructor
  · intro hu hr hf
    simp [fixed_rate_bill, not_lt_of_ge hu, not_lt_of_ge hr, not_lt_of_ge hf]
  · intro h
    simp [fixed_rate_bill, h]

/-- Witness for C9 at scenario 6 of the spec, plus a negative input. -/
theorem c9_witness :
    fixed_rate_bill 300 (1/4) 10 = .ok 85 ∧
    fixed_rate_bill (-1) (1/4) 10 = .error "Inputs must be non-negative." := by
  constructor
  · have h := (c9_fixed_rate 300 (1/4) 10).1 (by norm_num) (by norm_num) (by norm_num)
    rw [h]
    norm_num
  · exact (c9_fixed_rate (-1) (1/4) 10).2 (Or.inl (by norm_num))

/-! ## Validation-order lemmas -/

lemma calc_error_of_common {c f : ℚ} {tl : List Tier} {e : String}
    (h : validate_common c f = .error e) :
    calculate_tiered_bill c tl f = .error e := by
  unfold calculate_tiered_bill
  rw [h]

lemma calc_error_of_tiers {c f : ℚ} {tl : List Tier} {e : String}
    (h1 : validate_common c f = .ok ())
    (h2 : validate_tier_list tl = .error e) :
    calculate_tiered_bill c tl f = .error e := by
  unfold calculate_tiered_bill
  rw [h1, h2]

/-- A tier passes both of its per-tier checks. -/
def tierChecksOk (t : Tier) : Prop :=
  0 ≤ t.2 ∧ ∀ b, t.1 = some b → 0 < b

lemma validateTiersFrom_error_at (tl : List Tier) (i k : ℕ)
    (hk : k < tl.length)
    (hprev : ∀ j, j < k → tierChecksOk (tl.getD j dfltTier)) :
    ((tl.getD k dfltTier).2 < 0 →
      validateTiersFrom i tl =
        .error ("rate for tier " ++ toString (i + k) ++ " must be >= 0")) ∧
    (0 ≤ (tl.getD k dfltTier).2 →
      ∀ b, (tl.getD k dfltTier).1 = some b → b ≤ 0 →
      validateTiersFrom i tl =
        .error ("block_kwh for tier " ++ toString (i + k) ++
          " must be > 0 or None for unlimited")) := by
  induction tl generalizing i k with
  | nil => simp at hk
  | cons t rest ih =>
    obtain ⟨bk, rt⟩ := t
    cases k with
    | zero =>
      constructor
      · intro hrt
        simp only [List.getD_cons_zero] at hrt
        simp [validateTiersFrom, hrt]
      · intro hrt b hb hble
        simp only [List.getD_cons_zero] at hrt hb
        subst hb
        simp [validateTiersFrom, not_lt_of_ge hrt, hble]
    | succ k =>
      have h0 := hprev 0 (Nat.succ_pos k)
      simp only [List.getD_cons_zero] at h0
      obtain ⟨hrt0, hbk0⟩ := h0
      have hk' : k < rest.length := by simpa using hk
      have hprev' : ∀ j, j < k → tierChecksOk (rest.getD j dfltTier) := by
        intro j hj
        have := hprev (j + 1) (Nat.succ_lt_succ hj)
        simpa using this
      have hstep : validateTiersFrom i ((bk, rt) :: rest) =
          validateTiersFrom (i + 1) rest := by
        cases bk with
        | none => simp [validateTiersFrom, not_lt_of_ge hrt0]
        | some b =>
          have hb := hbk0 b rfl
          simp [validateTiersFrom, not_lt_of_ge hrt0, not_le_of_gt hb]
      obtain ⟨ha, hb⟩ := ih (i + 1) k hk' hprev'
      have hidx : i + 1 + k = i + (k + 1) := by omega
      rw [hidx] at ha hb
      constructor
      · intro hrt
        rw [hstep]
        exact ha (by simpa using hrt)
      · intro hrt b hsome hble
        rw [hstep]
        exact hb (by simpa using hrt) b (by simpa using hsome) hble

/-- C3: validation precedes computation and runs in the fixed order
consumption, fixed fee, non-empty tier list, then the per-tier checks
(rate before block size) tier by tier, the first failing check
determining the error; per-tier messages carry the 1-based index. -/
theorem c3_validation_order (c f : ℚ) (tl : List Tier) :
    (c < 0 →
      calculate_tiered_bill c tl f = .error "consumption_kwh must be >= 0") ∧
    (0 ≤ c → f < 0 →
      calculate_tiered_bill c tl f = .error "fixed_fee must be >= 0") ∧
    (0 ≤ c → 0 ≤ f → tl = [] →
      calculate_tiered_bill c tl f = .error "tiers must be a non-empty list") ∧
    (0 ≤ c → 0 ≤ f → ∀ k, k < tl.length →
      (∀ j, j < k → tierChecksOk (tl.getD j dfltTier)) →
      ((tl.getD k dfltTier).2 < 0 →
        calculate_tiered_bill c tl f =
          .error ("rate for tier " ++ toString (k + 1) ++ " must be >= 0")) ∧
      (0 ≤ (tl.getD k dfltTier).2 →
        ∀ b, (tl.getD k dfltTier).1 = some b → b ≤ 0 →
        calculate_tiered_bill c tl f =
          .error ("block_kwh for tier " ++ toString (k + 1) ++
            " must be > 0 or None for unlimited"))) := by
  refine ⟨?_, ?_, ?_, ?_⟩
  · intro hc
    exact calc_error_of_common (by simp [validate_common, hc])
  · intro hc hf
    exact calc_error_of_common (by simp [validate_common, not_lt_of_ge hc, hf])
  · intro hc hf hnil
    subst hnil
    exact calc_error_of_tiers (validate_common_ok hc hf) rfl
  · intro hc hf k hk hprev
    have hne : tl ≠ [] := by
      intro hnil
      rw [hnil] at hk
      simp at hk
    have hvt : ∀ e, validateTiersFrom 1 tl = .error e →
        validate_tier_list tl = .error e := by
      intro e he
      cases tl with
      | nil => exact absurd rfl hne
      | cons t rest => simpa [validate_tier_list] using he
    obtain ⟨ha, hb⟩ := validateTiersFrom_error_at tl 1 k hk hprev
    have hidx : 1 + k = k + 1 := by omega
    rw [hidx] at ha hb
    constructor
    · intro hrt
      exact calc_error_of_tiers (validate_common_ok hc hf) (hvt _ (ha hrt))
    · intro hrt b hsome hble
      exact calc_error_of_tiers (validate_common_ok hc hf)
        (hvt _ (hb hrt b hsome hble))

/-- Witness for C3: the first check wins for a negative consumption,
and a non-positive finite block in the second tier is reported with its
1-based index. -/
theorem c3_witness :
    calculate_tiered_bill (-1) [(none, 1/5)] 0 =
      .error "consumption_kwh must be >= 0" ∧
    calculate_tiered_bill 1 [(some 100, 1/5), (some 0, 3/10)] 0 =
      .error "block_kwh for tier 2 must be > 0 or None for unlimited" := by
  constructor
  · exact (c3_validation_order (-1) 0 [(none, 1/5)]).1 (by norm_num)
  · have h := ((c3_validation_order 1 0 [(some 100, 1/5), (some 0, 3/10)]).2.2.2
      (by norm_num) le_rfl 1 (by norm_num)
      (by
        intro j hj
        interval_cases j
        exact ⟨by norm_num [dfltTier], fun b hb => by
          simp only [List.getD_cons_zero] at hb
          rw [show b = 100 from by simpa using hb.symm]
          norm_num⟩)).2
      (by norm_num [dfltTier]) 0 (by simp [dfltTier]) le_rfl
    have : ("block_kwh for tier " ++ toString (1 + 1) ++
        " must be > 0 or None for unlimited") =
        "block_kwh for tier 2 must be > 0 or None for unlimited" := by decide
    rw [this] at h
    exact h

/-- C4: in every successful result the breakdown follows the tier list
in order (entry `k` is for tier `k+1`), each touched tier's kWh is
`min(remaining, block_size)` — all of the remainder for an unlimited
tier — where `remaining` is the consumption minus everything allocated
to earlier tiers, and every tier before a touched tier was filled to
its full finite block size. -/
theorem c4_sequential_consumption (c f : ℚ) (tl : List Tier)
    (res : BillResult) (h : calculate_tiered_bill c tl f = .ok res) :
    res.breakdown.length ≤ tl.length ∧
    (∀ k, k < res.breakdown.length →
      (res.breakdown.getD k dfltEntry).tier_index = k + 1 ∧
      (res.breakdown.getD k dfltEntry).rate = (tl.getD k dfltTier).2 ∧
      (res.breakdown.getD k dfltEntry).kwh =
        blockOf (c - sumKwh (res.breakdown.take k)) (tl.getD k dfltTier).1) ∧
    (∀ k b, k + 1 < res.breakdown.length → (tl.getD k dfltTier).1 = some b →
      (res.breakdown.getD k dfltEntry).kwh = b) := by
  obtain ⟨_, _, _, hres⟩ := calculate_tiered_bill_ok_inv h
  subst hres
  refine ⟨tierWalk_length_le tl c 1, ?_, ?_⟩
  · intro k hk
    have hk2 : k < tl.length := lt_of_lt_of_le hk (tierWalk_length_le tl c 1)
    obtain ⟨h1, h2, _, h4⟩ := tierWalk_getD tl c 1 k hk hk2
    exact ⟨by rw [h1]; omega, h2, h4⟩
  · intro k b hk hb
    exact tierWalk_full tl c 1 k hk b hb

/-- Witness for C4 at scenario 1 of the spec: the first (finite,
100 kWh) tier is filled whole because a later tier was touched. -/
theorem c4_witness :
    (([⟨1, 100, 1/5, 20⟩, ⟨2, 200, 3/10, 60⟩, ⟨3, 50, 2/5, 20⟩] :
        List TierBreakdown).getD 0 dfltEntry).kwh = 100 := by
  have h := (c4_sequential_consumption 350 10
    [(some 100, 1/5), (some 200, 3/10), (none, 2/5)]
    ⟨[⟨1, 100, 1/5, 20⟩, ⟨2, 200, 3/10, 60⟩, ⟨3, 50, 2/5, 20⟩], 100, 10, 110⟩
    (by norm_num [calculate_tiered_bill, validate_common, validate_tier_list,
      validateTiersFrom, tierWalk, blockOf, tol, min_def])).2.2
    0 100 (by norm_num) (by simp [dfltTier])
  exact h

/-- C10: with an unlimited tier at (0-based) position `k`, validated
inputs never overflow: the call succeeds, the whole consumption is
allocated, no entry exists beyond position `k`, and if the unlimited
tier is reached it absorbs everything still remaining there. -/
theorem c10_unlimited_absorbs (c f : ℚ) (tl : List Tier) (k : ℕ)
    (hk : k < tl.length) (hnone : (tl.getD k dfltTier).1 = none)
    (hc : 0 ≤ c) (hf : 0 ≤ f) (hv : validate_tier_list tl = .ok ()) :
    ∃ res, calculate_tiered_bill c tl f = .ok res ∧
      res.breakdown.length ≤ k + 1 ∧
      sumKwh res.breakdown = c ∧
      (k < res.breakdown.length →
        (res.breakdown.getD k dfltEntry).kwh =
          c - sumKwh (res.breakdown.take k)) := by
  have hget : (tl.get ⟨k, hk⟩).1 = none := by
    rw [List.get_eq_getElem, ← List.getD_eq_getElem tl dfltTier hk]
    exact hnone
  obtain ⟨hrem, hlen⟩ := tierWalk_unlimited tl k hk hget c 1 hc
  have ho : ¬ tol < (tierWalk c 1 tl).2 := by
    rw [hrem]
    norm_num [tol]
  refine ⟨_, calculate_tiered_bill_eq_ok (validate_common_ok hc hf) hv ho,
    hlen, ?_, ?_⟩
  · rw [tierWalk_sum, hrem, sub_zero]
  · intro hkb
    have hk2 : k < tl.length := hk
    obtain ⟨_, _, _, h4⟩ := tierWalk_getD tl c 1 k hkb hk2
    rw [h4, hnone]
    rfl

/-- Witness for C10: an unlimited tier in the middle (position 1 of 3)
absorbs everything and the third tier is never touched. -/
theorem c10_witness :
    ∃ res, calculate_tiered_bill 500
        [(some 100, 1/5), (none, 3/10), (some 50, 1/2)] 0 = .ok res ∧
      res.breakdown.length ≤ 1 + 1 ∧
      sumKwh res.breakdown = 500 ∧
      (1 < res.breakdown.length →
        (res.breakdown.getD 1 dfltEntry).kwh =
          500 - sumKwh (res.breakdown.take 1)) :=
  c10_unlimited_absorbs 500 0 [(some 100, 1/5), (none, 3/10), (some 50, 1/2)] 1
    (by norm_num) (by simp [dfltTier]) (by norm_num) le_rfl
    (by norm_num [validate_tier_list, validateTiersFrom])

/-! ## Digit and character facts -/

lemma digitChar_toNat {d : ℕ} (h : d < 10) : (digitChar d).toNat = 48 + d := by
  interval_cases d <;> decide

lemma digitChar_isDigit {d : ℕ} (h : d < 10) : (digitChar d).isDigit = true := by
  interval_cases d <;> decide

lemma isDigit_toNat_bounds {c : Char} (h : c.isDigit = true) :
    48 ≤ c.toNat ∧ c.toNat ≤ 57 := by
  simp [Char.isDigit] at h
  exact h

lemma char_eq_of_toNat {a b : Char} (h : a.toNat = b.toNat) : a = b :=
  Char.ext (UInt32.ext h)

lemma isDigit_ne {c : Char} (h : c.isDigit = true) (d : Char)
    (hd : d.isDigit = false) : c ≠ d := by
  intro he
  rw [he] at h
  rw [h] at hd
  exact Bool.noConfusion hd

lemma isDigit_not_pyWs {c : Char} (h : c.isDigit = true) : isPyWs c = false := by
  obtain ⟨h1, h2⟩ := isDigit_toNat_bounds h
  simp only [isPyWs, Bool.or_eq_false_iff]
  refine ⟨⟨⟨⟨⟨?_, ?_⟩, ?_⟩, ?_⟩, ?_⟩, ?_⟩ <;>
    simp only [decide_eq_false_iff_not] <;>
    intro he <;>
    first
      | (rw [he] at h; exact absurd h (by decide))
      | omega

lemma isDigit_not_jsonWs {c : Char} (h : c.isDigit = true) : isJsonWs c = false := by
  simp only [isJsonWs, Bool.or_eq_false_iff]
  refine ⟨⟨⟨?_, ?_⟩, ?_⟩, ?_⟩ <;>
    simp only [decide_eq_false_iff_not] <;>
    intro he <;>
    (rw [he] at h; exact absurd h (by decide))

lemma isDigit_isNumChar {c : Char} (h : c.isDigit = true) : isNumChar c = true := by
  simp [isNumChar, h]

@[simp] lemma digitsVal_nil : digitsVal [] = 0 := rfl

lemma digitsVal_cons_foldl (a : ℕ) (l : List Char) :
    l.foldl (fun a c => 10 * a + (c.toNat - 48)) a =
      a * 10 ^ l.length + digitsVal l := by
  induction l generalizing a with
  | nil => simp [digitsVal]
  | cons c rest ih =>
    simp only [List.foldl_cons, digitsVal, List.length_cons]
    rw [ih (10 * a + (c.toNat - 48))]
    conv_rhs => rw [show List.foldl (fun a c => 10 * a + (c.toNat - 48))
      (10 * 0 + (c.toNat - 48)) rest =
      (10 * 0 + (c.toNat - 48)) * 10 ^ rest.length + digitsVal rest from ih _]
    ring

lemma digitsVal_append (l1 l2 : List Char) :
    digitsVal (l1 ++ l2) = digitsVal l1 * 10 ^ l2.length + digitsVal l2 := by
  simp only [digitsVal, List.foldl_append]
  exact digitsVal_cons_foldl _ l2

lemma digitsVal_cons (c : Char) (l : List Char) :
    digitsVal (c :: l) = (c.toNat - 48) * 10 ^ l.length + digitsVal l := by
  have := digitsVal_append [c] l
  simpa [digitsVal] using this

lemma digitsVal_singleton (c : Char) : digitsVal [c] = c.toNat - 48 := by
  simp [digitsVal_cons]

lemma digitsVal_replicate_zero (j : ℕ) :
    digitsVal (List.replicate j '0') = 0 := by
  induction j with
  | zero => rfl
  | succ j ih => simp [List.replicate_succ, digitsVal_cons, ih]

lemma digitsVal_padZeros (k : ℕ) (l : List Char) :
    digitsVal (padZeros k l) = digitsVal l := by
  unfold padZeros
  rw [digitsVal_append, digitsVal_replicate_zero]
  simp

lemma natToDigitsAux_spec (fuel : ℕ) : ∀ n : ℕ, n < fuel →
    digitsVal (natToDigitsAux fuel n) = n ∧
    natToDigitsAux fuel n ≠ [] ∧
    ∀ c ∈ natToDigitsAux fuel n, c.isDigit = true := by
  induction fuel with
  | zero => intro n h; omega
  | succ fuel ih =>
    intro n hn
    by_cases h10 : n < 10
    · simp only [natToDigitsAux, h10, if_true]
      refine ⟨?_, by simp, ?_⟩
      · rw [digitsVal_singleton, digitChar_toNat h10]
        omega
      · intro c hc
        simp only [List.mem_singleton] at hc
        rw [hc]
        exact digitChar_isDigit h10
    · simp only [natToDigitsAux, h10, if_false]
      have hdiv : n / 10 < fuel := by
        have h1 : n / 10 < n := Nat.div_lt_self (by omega) (by omega)
        omega
      obtain ⟨hv, hne, hd⟩ := ih (n / 10) hdiv
      have hmod : n % 10 < 10 := Nat.mod_lt _ (by omega)
      refine ⟨?_, by simp, ?_⟩
      · rw [digitsVal_append, hv, digitsVal_singleton, digitChar_toNat hmod]
        simp only [List.length_singleton, pow_one]
        omega
      · intro c hc
        rcases List.mem_append.mp hc with h | h
        · exact hd c h
        · simp only [List.mem_singleton] at h
          rw [h]
          exact digitChar_isDigit hmod

lemma natToDigits_val (n : ℕ) : digitsVal (natToDigits n) = n :=
  (natToDigitsAux_spec (n + 1) n (Nat.lt_succ_self n)).1

lemma natToDigits_ne_nil (n : ℕ) : natToDigits n ≠ [] :=
  (natToDigitsAux_spec (n + 1) n (Nat.lt_succ_self n)).2.1

lemma natToDigits_digits (n : ℕ) : ∀ c ∈ natToDigits n, c.isDigit = true :=
  (natToDigitsAux_spec (n + 1) n (Nat.lt_succ_self n)).2.2

lemma padZeros_digits {k : ℕ} {l : List Char}
    (h : ∀ c ∈ l, c.isDigit = true) :
    ∀ c ∈ padZeros k l, c.isDigit = true := by
  intro c hc
  rcases List.mem_append.mp hc with hr | hl
  · rw [List.eq_of_mem_replicate hr]
    decide
  · exact h c hl

lemma padZeros_length (k : ℕ) (l : List Char) :
    (padZeros k l).length = max k l.length := by
  simp [padZeros]
  omega

/-! ## Lemmas about the string primitives -/

lemma dropWhile_eq_self {p : Char → Bool} {l : List Char}
    (h : ∀ c ∈ l, p c = false) : l.dropWhile p = l := by
  cases l with
  | nil => rfl
  | cons c rest =>
    rw [List.dropWhile_cons]
    simp [h c (List.mem_cons_self c rest)]

lemma pyStrip_eq_self {l : List Char} (h : ∀ c ∈ l, isPyWs c = false) :
    pyStrip l = l := by
  unfold pyStrip
  rw [dropWhile_eq_self h, dropWhile_eq_self (by simpa using h),
    List.reverse_reverse]

lemma mem_of_mem_pyStrip {c : Char} {l : List Char} (h : c ∈ pyStrip l) :
    c ∈ l := by
  unfold pyStrip at h
  rw [List.mem_reverse] at h
  have h1 := (List.dropWhile_sublist _).mem h
  rw [List.mem_reverse] at h1
  exact (List.dropWhile_sublist _).mem h1

lemma pySplit_ne_nil (sep : Char) (l : List Char) : pySplit sep l ≠ [] := by
  cases l with
  | nil => simp [pySplit]
  | cons c rest =>
    rw [pySplit]
    cases hps : pySplit sep rest with
    | nil => simp
    | cons p ps =>
      by_cases hc : c = sep <;> simp [hc]

lemma pySplit_no_sep {sep : Char} {l : List Char} (h : sep ∉ l) :
    pySplit sep l = [l] := by
  induction l with
  | nil => rfl
  | cons c rest ih =>
    have hc : c ≠ sep := fun he => h (he ▸ List.mem_cons_self c rest)
    have hrest : sep ∉ rest := fun hm => h (List.mem_cons_of_mem c hm)
    rw [pySplit, ih hrest]
    simp [fun he => hc he]

lemma pySplit_append_sep {sep : Char} {xs ys : List Char} (h : sep ∉ xs) :
    pySplit sep (xs ++ sep :: ys) = xs :: pySplit sep ys := by
  induction xs with
  | nil =>
    simp only [List.nil_append, pySplit]
    cases hps : pySplit sep ys with
    | nil => exact absurd hps (pySplit_ne_nil sep ys)
    | cons p ps => simp
  | cons c rest ih =>
    have hc : c ≠ sep := fun he => h (he ▸ List.mem_cons_self c rest)
    have hrest : sep ∉ rest := fun hm => h (List.mem_cons_of_mem c hm)
    simp only [List.cons_append, pySplit, List.append_eq]
    rw [ih hrest]
    simp [fun he => hc he]

/-! ## Shorthand-branch characterization -/

lemma parse_tiers_shorthand {text : List Char} (h1 : text ≠ [])
    (h2 : (pyStrip text).head? ≠ some '[') :
    parse_tiers text =
      match parseShorthandParts (pySplit ',' (pyStrip text)) with
      | some out => .ok out
      | none => .error "invalid shorthand tier entry" := by
  unfold parse_tiers
  rw [if_neg (by simpa using h1), if_neg h2]

lemma parse_tiers_json {text : List Char} (h1 : text ≠ [])
    (h2 : (pyStrip text).head? = some '[') :
    parse_tiers text =
      match jsonParseTiers (pyStrip text) with
      | some out => .ok out
      | none => .error "invalid JSON tier list" := by
  unfold parse_tiers
  rw [if_neg (by simpa using h1), if_pos h2]

lemma parseShorthandPart_no_at {part : List Char} (h : '@' ∉ part) :
    parseShorthandPart part = none := by
  have h2 : '@' ∉ pyStrip part := fun hm => h (mem_of_mem_pyStrip hm)
  unfold parseShorthandPart
  rw [pySplit_no_sep h2]

lemma parseShorthandPart_unlimited {part s r : List Char}
    (hsplit : pyStrip part = s ++ '@' :: r) (hs : '@' ∉ s) (hr : '@' ∉ r)
    (hu : unlimitedTokens.contains (pyStrip s) = true) :
    parseShorthandPart part = (parseFloat r).map (fun rate => (none, rate)) := by
  unfold parseShorthandPart
  rw [hsplit, pySplit_append_sep hs, pySplit_no_sep hr]
  simp only [hu, if_true]
  cases hy : parseFloat r <;> simp

lemma parseShorthandPart_number {part s r : List Char}
    (hsplit : pyStrip part = s ++ '@' :: r) (hs : '@' ∉ s) (hr : '@' ∉ r)
    (hu : unlimitedTokens.contains (pyStrip s) = false) :
    parseShorthandPart part =
      (parseFloat s).bind (fun a => (parseFloat r).map (fun rate => (some a, rate))) := by
  unfold parseShorthandPart
  rw [hsplit, pySplit_append_sep hs, pySplit_no_sep hr]
  simp only [hu, if_false, Bool.false_eq_true]
  cases hx : parseFloat s <;> cases hy : parseFloat r <;> simp

lemma parseShorthandParts_eq_some_iff {parts : List (List Char)}
    {out : List Tier} :
    parseShorthandParts parts = some out ↔
      parts.map parseShorthandPart = out.map some := by
  induction parts generalizing out with
  | nil =>
    cases out <;> simp [parseShorthandParts]
  | cons p rest ih =>
    simp only [parseShorthandParts, List.map_cons]
    cases hp : parseShorthandPart p with
    | none =>
      constructor
      · intro h
        exact absurd h (by simp)
      · intro h
        cases out with
        | nil => simp at h
        | cons o os => simp at h
    | some t =>
      cases hrec : parseShorthandParts rest with
      | none =>
        constructor
        · intro h
          exact absurd h (by simp)
        · intro h
          cases out with
          | nil => simp at h
          | cons o os =>
            simp only [List.map_cons, List.cons.injEq] at h
            exact absurd (ih.mpr h.2) (by simp [hrec])
      | some ts =>
        constructor
        · intro h
          have hout : out = t :: ts := (Option.some.inj h).symm
          subst hout
          simp only [List.map_cons, List.cons.injEq]
          exact ⟨trivial, ih.mp hrec⟩
        · intro h
          cases out with
          | nil => simp at h
          | cons o os =>
            simp only [List.map_cons, List.cons.injEq] at h
            obtain ⟨h1, h2⟩ := h
            have hto : t = o := Option.some.inj h1
            have hos : ts = os := by
              have hmp := ih.mpr h2
              rw [hrec] at hmp
              exact Option.some.inj hmp
            rw [hto, hos]

lemma parseShorthandParts_none {parts : List (List Char)}
    (h : ∃ p ∈ parts, parseShorthandPart p = none) :
    parseShorthandParts parts = none := by
  induction parts with
  | nil => simp at h
  | cons q rest ih =>
    obtain ⟨p, hp, hnone⟩ := h
    rcases List.mem_cons.mp hp with rfl | hmem
    · simp [parseShorthandParts, hnone]
    · simp only [parseShorthandParts]
      cases hq : parseShorthandPart q with
      | none => rfl
      | some t => simp [ih ⟨p, hmem, hnone⟩]

/-- C6: the shorthand grammar of `parse_tiers`.  The text is split on
commas into entries, in input order; an entry parses by splitting its
(whitespace-trimmed) body at `'@'` into a size token and a rate token;
a size token whose trim is literally one of `*`, `None`, `null` gives
the unlimited sentinel, any other token goes through `float`; an entry
with no `'@'` fails, making the whole parse fail; and
`parse_tiers "100@0.2, *@0.3"` gives `[(100, 0.2), (unlimited, 0.3)]`. -/
theorem c6_shorthand_grammar :
    (∀ text out, text ≠ [] → (pyStrip text).head? ≠ some '[' →
      (parse_tiers text = .ok out ↔
        (pySplit ',' (pyStrip text)).map parseShorthandPart = out.map some)) ∧
    (∀ text part, text ≠ [] → (pyStrip text).head? ≠ some '[' →
      part ∈ pySplit ',' (pyStrip text) → parseShorthandPart part = none →
      parse_tiers text = .error "invalid shorthand tier entry") ∧
    (∀ part s r, pyStrip part = s ++ '@' :: r → '@' ∉ s → '@' ∉ r →
      unlimitedTokens.contains (pyStrip s) = true →
      parseShorthandPart part = (parseFloat r).map (fun rate => (none, rate))) ∧
    (∀ part s r, pyStrip part = s ++ '@' :: r → '@' ∉ s → '@' ∉ r →
      unlimitedTokens.contains (pyStrip s) = false →
      parseShorthandPart part =
        (parseFloat s).bind
          (fun a => (parseFloat r).map (fun rate => (some a, rate)))) ∧
    (∀ part, '@' ∉ part → parseShorthandPart part = none) ∧
    parse_tiers "100@0.2, *@0.3".data = .ok [(some 100, 1/5), (none, 3/10)] := by
  refine ⟨?_, ?_, ?_, ?_, ?_, ?_⟩
  · intro text out h1 h2
    rw [parse_tiers_shorthand h1 h2, ← parseShorthandParts_eq_some_iff]
    cases hps : parseShorthandParts (pySplit ',' (pyStrip text)) with
    | none =>
      constructor
      · intro h
        exact absurd h (by simp)
      · intro h
        exact absurd h (by simp)
    | some ts =>
      constructor
      · intro h
        rw [Except.ok.inj h]
      · intro h
        rw [Option.some.inj h]
  · intro text part h1 h2 hmem hnone
    rw [parse_tiers_shorthand h1 h2,
      parseShorthandParts_none ⟨part, hmem, hnone⟩]
  · exact fun part s r h1 h2 h3 h4 => parseShorthandPart_unlimited h1 h2 h3 h4
  · exact fun part s r h1 h2 h3 h4 => parseShorthandPart_number h1 h2 h3 h4
  · exact fun part h => parseShorthandPart_no_at h
  · simp +decide [parse_tiers, pyStrip, isPyWs, pySplit, parseShorthandParts,
      parseShorthandPart, unlimitedTokens, parseFloat, parseSigned,
      parseUnsigned, parseMantissa, splitFirst, digitsVal]
    norm_num

/-- Witness for C6: scenario 4 of the spec, and an entry without `'@'`
is rejected. -/
theorem c6_witness :
    parse_tiers "100@0.2, *@0.3".data = .ok [(some 100, 1/5), (none, 3/10)] ∧
    parseShorthandPart "100 0.2".data = none :=
  ⟨c6_shorthand_grammar.2.2.2.2.2,
    c6_shorthand_grammar.2.2.2.2.1 ("100 0.2".data) (by decide)⟩

/-! ## Canonical decimal renderings (for the round-trip claim)

A tier list whose numbers are decimal literals `m / 10^k` can be
written in both input grammars; these renderers produce the canonical
texts, and the round-trip theorem parses them back. -/

/-- The rational denoted by the decimal pair `(m, k)`: `m / 10^k`. -/
def decValue (m : ℤ) (k : ℕ) : ℚ := (m : ℚ) / 10 ^ k

/-- The canonical decimal literal of `m / 10^k` (e.g. `-12.34` for
`m = -1234`, `k = 2`; no decimal point when `k = 0`). -/
def renderDec (m : ℤ) (k : ℕ) : List Char :=
  let ds := padZeros (k + 1) (natToDigits m.natAbs)
  (if m < 0 then ['-'] else []) ++
    (ds.take (ds.length - k) ++
      (if k = 0 then [] else '.' :: ds.drop (ds.length - k)))

lemma renderDec_eq (m : ℤ) (k : ℕ) :
    ∃ ip fp : List Char,
      renderDec m k = (if m < 0 then ['-'] else []) ++
        (ip ++ (if k = 0 then [] else '.' :: fp)) ∧
      ip ≠ [] ∧ (∀ c ∈ ip, c.isDigit = true) ∧
      (∀ c ∈ fp, c.isDigit = true) ∧ fp.length = k ∧
      digitsVal ip * 10 ^ k + digitsVal fp = m.natAbs := by
  set ds := padZeros (k + 1) (natToDigits m.natAbs) with hds
  have hdig : ∀ c ∈ ds, c.isDigit = true :=
    padZeros_digits (natToDigits_digits m.natAbs)
  have hlen : k + 1 ≤ ds.length := by
    rw [hds, padZeros_length]
    omega
  refine ⟨ds.take (ds.length - k), ds.drop (ds.length - k), rfl, ?_, ?_, ?_, ?_, ?_⟩
  · have : (ds.take (ds.length - k)).length = ds.length - k := by
      rw [List.length_take]
      omega
    intro hnil
    rw [hnil] at this
    simp at this
    omega
  · intro c hc
    exact hdig c (List.take_subset _ _ hc)
  · intro c hc
    exact hdig c (List.drop_subset _ _ hc)
  · rw [List.length_drop]
    omega
  · have hsplit : ds.take (ds.length - k) ++ ds.drop (ds.length - k) = ds :=
      List.take_append_drop _ ds
    have hdl : (ds.drop (ds.length - k)).length = k := by
      rw [List.length_drop]
      omega
    have := digitsVal_append (ds.take (ds.length - k)) (ds.drop (ds.length - k))
    rw [hsplit, hdl] at this
    rw [← this, hds, digitsVal_padZeros, natToDigits_val]

/-! ## `parseFloat` round-trip on canonical decimals -/

lemma splitFirst_none {p : Char → Bool} {l : List Char}
    (h : ∀ c ∈ l, p c = false) : splitFirst p l = (l, none) := by
  induction l with
  | nil => rfl
  | cons c rest ih =>
    rw [splitFirst, ih (fun x hx => h x (List.mem_cons_of_mem c hx))]
    simp [h c (List.mem_cons_self c rest)]

lemma splitFirst_app {p : Char → Bool} {xs ys : List Char} {c : Char}
    (hx : ∀ x ∈ xs, p x = false) (hc : p c = true) :
    splitFirst p (xs ++ c :: ys) = (xs, some ys) := by
  induction xs with
  | nil => simp [splitFirst, hc]
  | cons x rest ih =>
    rw [List.cons_append, splitFirst,
      ih (fun y hy => hx y (List.mem_cons_of_mem x hy))]
    simp [hx x (List.mem_cons_self x rest)]

lemma isDigit_not_expChar {c : Char} (h : c.isDigit = true) :
    (c = 'e' || c = 'E') = false := by
  simp only [Bool.or_eq_false_iff, decide_eq_false_iff_not]
  exact ⟨isDigit_ne h 'e' (by decide), isDigit_ne h 'E' (by decide)⟩

lemma isDigit_not_dot {c : Char} (h : c.isDigit = true) :
    decide (c = '.') = false := by
  simp only [decide_eq_false_iff_not]
  exact isDigit_ne h '.' (by decide)

lemma parseUnsigned_no_exp {l : List Char}
    (h : ∀ c ∈ l, (c = 'e' || c = 'E') = false) :
    parseUnsigned l = parseMantissa l := by
  unfold parseUnsigned
  rw [splitFirst_none h]

lemma parseMantissa_no_dot {l : List Char}
    (h : ∀ c ∈ l, decide (c = '.') = false) :
    parseMantissa l =
      if (!l.isEmpty && l.all Char.isDigit) = true
      then some ((digitsVal l : ℕ) : ℚ) else none := by
  unfold parseMantissa
  rw [splitFirst_none h]

lemma parseMantissa_split {ip fp : List Char}
    (h : ∀ c ∈ ip, decide (c = '.') = false) :
    parseMantissa (ip ++ '.' :: fp) =
      if ((!ip.isEmpty || !fp.isEmpty) && ip.all Char.isDigit &&
          fp.all Char.isDigit) = true
      then some ((digitsVal ip : ℚ) + (digitsVal fp : ℚ) / 10 ^ fp.length)
      else none := by
  unfold parseMantissa
  rw [splitFirst_app h (by decide)]

lemma parseUnsigned_decimal {ip fp : List Char} {k : ℕ}
    (hip : ip ≠ []) (hd1 : ∀ c ∈ ip, c.isDigit = true)
    (hd2 : ∀ c ∈ fp, c.isDigit = true) (hlen : fp.length = k) :
    parseUnsigned (ip ++ (if k = 0 then [] else '.' :: fp)) =
      some ((digitsVal ip : ℚ) + (digitsVal fp : ℚ) / 10 ^ k) := by
  have h1 : ip.isEmpty = false := by simpa using hip
  have h2 : ip.all Char.isDigit = true := List.all_eq_true.mpr hd1
  by_cases hk : k = 0
  · have hfp : fp = [] := List.length_eq_zero.mp (by rw [hlen, hk])
    subst hfp
    rw [if_pos hk, List.append_nil,
      parseUnsigned_no_exp (fun c hc => isDigit_not_expChar (hd1 c hc)),
      parseMantissa_no_dot (fun c hc => isDigit_not_dot (hd1 c hc)),
      if_pos (by simp [h1, h2])]
    rw [hk]
    norm_num
  · have h3 : fp.all Char.isDigit = true := List.all_eq_true.mpr hd2
    rw [if_neg hk,
      parseUnsigned_no_exp (by
        intro c hc
        rcases List.mem_append.mp hc with hm | hm
        · exact isDigit_not_expChar (hd1 c hm)
        · rcases List.mem_cons.mp hm with rfl | hm
          · decide
          · exact isDigit_not_expChar (hd2 c hm)),
      parseMantissa_split (fun c hc => isDigit_not_dot (hd1 c hc)),
      if_pos (by simp [h1, h2, h3]), hlen]

lemma renderDec_not_pyWs (m : ℤ) (k : ℕ) :
    ∀ c ∈ renderDec m k, isPyWs c = false := by
  obtain ⟨ip, fp, heq, _, hd1, hd2, _, _⟩ := renderDec_eq m k
  rw [heq]
  intro c hc
  rcases List.mem_append.mp hc with h | h
  · by_cases hm : m < 0
    · rw [if_pos hm] at h
      simp only [List.mem_singleton] at h
      rw [h]
      decide
    · rw [if_neg hm] at h
      simp at h
  · rcases List.mem_append.mp h with h | h
    · exact isDigit_not_pyWs (hd1 c h)
    · by_cases hk : k = 0
      · rw [if_pos hk] at h
        simp at h
      · rw [if_neg hk] at h
        rcases List.mem_cons.mp h with rfl | h
        · decide
        · exact isDigit_not_pyWs (hd2 c h)

lemma parseFloat_renderDec (m : ℤ) (k : ℕ) :
    parseFloat (renderDec m k) = some (decValue m k) := by
  obtain ⟨ip, fp, heq, hip, hd1, hd2, hlen, hval⟩ := renderDec_eq m k
  have habs : ((m.natAbs : ℚ)) =
      (digitsVal ip : ℚ) * 10 ^ k + (digitsVal fp : ℚ) := by
    rw [← hval]
    push_cast
    ring
  have hpow : (0 : ℚ) < 10 ^ k := by positivity
  unfold parseFloat
  rw [pyStrip_eq_self (renderDec_not_pyWs m k), heq]
  by_cases hm : m < 0
  · rw [if_pos hm]
    simp only [List.singleton_append, parseSigned]
    norm_num
    rw [parseUnsigned_decimal hip hd1 hd2 hlen]
    have hmq : ((m.natAbs : ℕ) : ℚ) = -(m : ℚ) := by
      have habs2 : |m| = -m := abs_of_neg hm
      rw [Int.cast_natAbs, habs2]
      push_cast
      ring
    have hm2 : (m : ℚ) =
        -((digitsVal ip : ℚ) * 10 ^ k + (digitsVal fp : ℚ)) := by
      linarith [habs, hmq]
    rw [decValue, hm2]
    field_simp
  · rw [if_neg hm]
    rw [List.nil_append]
    obtain ⟨c, ip2, rfl⟩ := List.exists_cons_of_ne_nil hip
    have hcd : c.isDigit = true := hd1 c (List.mem_cons_self c ip2)
    rw [List.cons_append]
    simp only [parseSigned]
    rw [if_neg (isDigit_ne hcd '+' (by decide)),
      if_neg (isDigit_ne hcd '-' (by decide)), ← List.cons_append,
      parseUnsigned_decimal hip hd1 hd2 hlen]
    congr 1
    have h1 : (m.natAbs : ℤ) = m := by omega
    have hmq : ((m.natAbs : ℕ) : ℚ) = (m : ℚ) := by
      have habs2 : |m| = m := abs_of_nonneg (not_lt.mp hm)
      rw [Int.cast_natAbs, habs2]
    have hm2 : (m : ℚ) =
        (digitsVal (c :: ip2) : ℚ) * 10 ^ k + (digitsVal fp : ℚ) := by
      linarith [habs, hmq]
    rw [decValue, hm2]
    field_simp

/-! ## Renderers for the two grammars -/

/-- Join texts with a separator (`sep.join(parts)`). -/
def joinSepList (sep : List Char) : List (List Char) → List Char
  | [] => []
  | [x] => x
  | x :: xs => x ++ (sep ++ joinSepList sep xs)

/-- The structured tier a decimal-pair tier denotes. -/
def toTierOf (t : Option (ℤ × ℕ) × (ℤ × ℕ)) : Tier :=
  (t.1.map (fun p => decValue p.1 p.2), decValue t.2.1 t.2.2)

/-- One shorthand entry `size@rate` (`*` for unlimited). -/
def renderShorthandEntry (t : Option (ℤ × ℕ) × (ℤ × ℕ)) : List Char :=
  (match t.1 with
   | none => ['*']
   | some p => renderDec p.1 p.2) ++ '@' :: renderDec t.2.1 t.2.2

/-- The shorthand text of a whole tier list. -/
def renderShorthand (ts : List (Option (ℤ × ℕ) × (ℤ × ℕ))) : List Char :=
  joinSepList [','] (ts.map renderShorthandEntry)

/-- A JSON size: `null` for unlimited, else the decimal literal. -/
def renderJsonItem : Option (ℤ × ℕ) → List Char
  | none => "null".data
  | some p => renderDec p.1 p.2

/-- One JSON pair `[size,rate]`. -/
def renderJsonPair (t : Option (ℤ × ℕ) × (ℤ × ℕ)) : List Char :=
  '[' :: (renderJsonItem t.1 ++ ',' :: (renderDec t.2.1 t.2.2 ++ [']']))

/-- The JSON text of a whole tier list. -/
def renderJson (ts : List (Option (ℤ × ℕ) × (ℤ × ℕ))) : List Char :=
  '[' :: (joinSepList [','] (ts.map renderJsonPair) ++ [']'])

/-! ## Character classes of the rendered texts -/

lemma renderDec_chars (m : ℤ) (k : ℕ) :
    ∀ c ∈ renderDec m k, c.isDigit = true ∨ c = '-' ∨ c = '.' := by
  obtain ⟨ip, fp, heq, _, hd1, hd2, _, _⟩ := renderDec_eq m k
  rw [heq]
  intro c hc
  rcases List.mem_append.mp hc with h | h
  · by_cases hm : m < 0
    · rw [if_pos hm] at h
      simp only [List.mem_singleton] at h
      exact Or.inr (Or.inl h)
    · rw [if_neg hm] at h
      simp at h
  · rcases List.mem_append.mp h with h | h
    · exact Or.inl (hd1 c h)
    · by_cases hk : k = 0
      · rw [if_pos hk] at h
        simp at h
      · rw [if_neg hk] at h
        rcases List.mem_cons.mp h with rfl | h
        · exact Or.inr (Or.inr rfl)
        · exact Or.inl (hd2 c h)

lemma renderDec_ne_nil (m : ℤ) (k : ℕ) : renderDec m k ≠ [] := by
  obtain ⟨ip, fp, heq, hip, _, _, _, _⟩ := renderDec_eq m k
  rw [heq]
  intro hnil
  rcases List.append_eq_nil.mp hnil with ⟨_, h2⟩
  rcases List.append_eq_nil.mp h2 with ⟨h3, _⟩
  exact hip h3

lemma renderDec_head (m : ℤ) (k : ℕ) :
    ∃ c rest, renderDec m k = c :: rest ∧ (c.isDigit = true ∨ c = '-') := by
  obtain ⟨ip, fp, heq, hip, hd1, _, _, _⟩ := renderDec_eq m k
  obtain ⟨c, ip2, hip2⟩ := List.exists_cons_of_ne_nil hip
  by_cases hm : m < 0
  · exact ⟨'-', _, by rw [heq, if_pos hm]; rfl, Or.inr rfl⟩
  · refine ⟨c, ip2 ++ (if k = 0 then [] else '.' :: fp), ?_, ?_⟩
    · rw [heq, if_neg hm, hip2]
      simp
    · exact Or.inl (hd1 c (by rw [hip2]; exact List.mem_cons_self c ip2))

lemma renderDec_no_at (m : ℤ) (k : ℕ) : '@' ∉ renderDec m k := by
  intro hc
  rcases renderDec_chars m k '@' hc with h | h | h
  · exact absurd h (by decide)
  · exact absurd h (by decide)
  · exact absurd h (by decide)

lemma renderDec_no_comma (m : ℤ) (k : ℕ) : ',' ∉ renderDec m k := by
  intro hc
  rcases renderDec_chars m k ',' hc with h | h | h
  · exact absurd h (by decide)
  · exact absurd h (by decide)
  · exact absurd h (by decide)

lemma renderDec_numChar (m : ℤ) (k : ℕ) :
    ∀ c ∈ renderDec m k, isNumChar c = true := by
  intro c hc
  rcases renderDec_chars m k c hc with h | h | h
  · exact isDigit_isNumChar h
  · rw [h]; decide
  · rw [h]; decide

lemma renderDec_not_unlimited (m : ℤ) (k : ℕ) :
    unlimitedTokens.contains (renderDec m k) = false := by
  have hstar : renderDec m k ≠ "*".data := by
    intro he
    have : '*' ∈ renderDec m k := by rw [he]; decide
    rcases renderDec_chars m k '*' this with h | h | h <;>
      exact absurd h (by decide)
  have hnone : renderDec m k ≠ "None".data := by
    intro he
    have : 'N' ∈ renderDec m k := by rw [he]; decide
    rcases renderDec_chars m k 'N' this with h | h | h <;>
      exact absurd h (by decide)
  have hnull : renderDec m k ≠ "null".data := by
    intro he
    have : 'u' ∈ renderDec m k := by rw [he]; decide
    rcases renderDec_chars m k 'u' this with h | h | h <;>
      exact absurd h (by decide)
  simp [unlimitedTokens]
  tauto

lemma mem_joinSepList {c : Char} {sep : List Char} {entries : List (List Char)}
    (h : c ∈ joinSepList sep entries) :
    c ∈ sep ∨ ∃ e ∈ entries, c ∈ e := by
  induction entries with
  | nil => simp [joinSepList] at h
  | cons e rest ih =>
    cases rest with
    | nil =>
      right
      exact ⟨e, List.mem_cons_self e [],
        by rw [show joinSepList sep [e] = e from rfl] at h; exact h⟩
    | cons e2 rest2 =>
      rw [show joinSepList sep (e :: e2 :: rest2) =
        e ++ (sep ++ joinSepList sep (e2 :: rest2)) from rfl] at h
      rcases List.mem_append.mp h with h1 | h1
      · exact Or.inr ⟨e, List.mem_cons_self _ _, h1⟩
      · rcases List.mem_append.mp h1 with h2 | h2
        · exact Or.inl h2
        · rcases ih h2 with h3 | ⟨e3, he3, hc3⟩
          · exact Or.inl h3
          · exact Or.inr ⟨e3, List.mem_cons_of_mem e he3, hc3⟩

lemma pySplit_joinSepList {entries : List (List Char)} (hne : entries ≠ [])
    (h : ∀ e ∈ entries, ',' ∉ e) :
    pySplit ',' (joinSepList [','] entries) = entries := by
  induction entries with
  | nil => exact absurd rfl hne
  | cons e rest ih =>
    cases rest with
    | nil =>
      rw [show joinSepList [','] [e] = e from rfl]
      exact pySplit_no_sep (h e (List.mem_cons_self e []))
    | cons e2 rest2 =>
      rw [show joinSepList [','] (e :: e2 :: rest2) =
        e ++ ',' :: joinSepList [','] (e2 :: rest2) by simp [joinSepList]]
      rw [pySplit_append_sep (h e (List.mem_cons_self _ _))]
      rw [ih (by simp) (fun x hx => h x (List.mem_cons_of_mem e hx))]

/-! ## Shorthand round-trip -/

lemma renderShorthandEntry_split (t : Option (ℤ × ℕ) × (ℤ × ℕ)) :
    ∃ sizeTok : List Char,
      renderShorthandEntry t = sizeTok ++ '@' :: renderDec t.2.1 t.2.2 ∧
      '@' ∉ sizeTok ∧ sizeTok ≠ [] ∧
      (∀ c ∈ sizeTok, isPyWs c = false) ∧
      (t.1 = none → sizeTok = ['*']) ∧
      (∀ p, t.1 = some p → sizeTok = renderDec p.1 p.2) := by
  obtain ⟨s, r⟩ := t
  cases s with
  | none =>
    refine ⟨['*'], rfl, by decide, by simp, ?_, fun _ => rfl, by simp⟩
    intro c hc
    simp only [List.mem_singleton] at hc
    rw [hc]
    decide
  | some p =>
    exact ⟨renderDec p.1 p.2, rfl, renderDec_no_at p.1 p.2,
      renderDec_ne_nil p.1 p.2, renderDec_not_pyWs p.1 p.2,
      by simp, fun q hq => by rw [Option.some.inj hq]⟩

lemma renderShorthandEntry_not_pyWs (t : Option (ℤ × ℕ) × (ℤ × ℕ)) :
    ∀ c ∈ renderShorthandEntry t, isPyWs c = false := by
  obtain ⟨sizeTok, heq, _, _, hws, _, _⟩ := renderShorthandEntry_split t
  rw [heq]
  intro c hc
  rcases List.mem_append.mp hc with h | h
  · exact hws c h
  · rcases List.mem_cons.mp h with rfl | h
    · decide
    · exact renderDec_not_pyWs t.2.1 t.2.2 c h

lemma parseShorthandPart_renderEntry (t : Option (ℤ × ℕ) × (ℤ × ℕ)) :
    parseShorthandPart (renderShorthandEntry t) = some (toTierOf t) := by
  obtain ⟨sizeTok, heq, hat, hne, hws, hstar, hdec⟩ := renderShorthandEntry_split t
  have hstrip : pyStrip (renderShorthandEntry t) = renderShorthandEntry t :=
    pyStrip_eq_self (renderShorthandEntry_not_pyWs t)
  have hsplit : pyStrip (renderShorthandEntry t) =
      sizeTok ++ '@' :: renderDec t.2.1 t.2.2 := by rw [hstrip, heq]
  cases hs : t.1 with
  | none =>
    have hst : sizeTok = ['*'] := hstar hs
    rw [parseShorthandPart_unlimited hsplit hat
      (renderDec_no_at t.2.1 t.2.2) (by rw [hst]; decide),
      parseFloat_renderDec]
    simp [toTierOf, hs]
  | some p =>
    have hst : sizeTok = renderDec p.1 p.2 := hdec p hs
    rw [parseShorthandPart_number hsplit hat
      (renderDec_no_at t.2.1 t.2.2) (by
        rw [hst, pyStrip_eq_self (renderDec_not_pyWs p.1 p.2)]
        exact renderDec_not_unlimited p.1 p.2),
      hst, parseFloat_renderDec, parseFloat_renderDec]
    simp [toTierOf, hs]

lemma parseShorthandParts_render (ts : List (Option (ℤ × ℕ) × (ℤ × ℕ))) :
    parseShorthandParts (ts.map renderShorthandEntry) =
      some (ts.map toTierOf) := by
  induction ts with
  | nil => rfl
  | cons t rest ih =>
    simp [parseShorthandParts, parseShorthandPart_renderEntry, ih]

lemma renderShorthandEntry_no_comma (t : Option (ℤ × ℕ) × (ℤ × ℕ)) :
    ',' ∉ renderShorthandEntry t := by
  obtain ⟨sizeTok, heq, _, _, _, hstar, hdec⟩ := renderShorthandEntry_split t
  rw [heq]
  intro hc
  rcases List.mem_append.mp hc with h | h
  · cases hs : t.1 with
    | none =>
      rw [hstar hs] at h
      simp at h
    | some p =>
      rw [hdec p hs] at h
      exact renderDec_no_comma p.1 p.2 h
  · rcases List.mem_cons.mp h with he | h
    · exact absurd he (by decide)
    · exact renderDec_no_comma t.2.1 t.2.2 h

lemma renderShorthandEntry_head (t : Option (ℤ × ℕ) × (ℤ × ℕ)) :
    ∃ c rest, renderShorthandEntry t = c :: rest ∧
      (c = '*' ∨ c.isDigit = true ∨ c = '-') := by
  obtain ⟨sizeTok, heq, _, hne, _, hstar, hdec⟩ := renderShorthandEntry_split t
  cases hs : t.1 with
  | none =>
    refine ⟨'*', '@' :: renderDec t.2.1 t.2.2, ?_, Or.inl rfl⟩
    rw [heq, hstar hs]
    rfl
  | some p =>
    obtain ⟨c, x, hcx, hcc⟩ := renderDec_head p.1 p.2
    refine ⟨c, x ++ '@' :: renderDec t.2.1 t.2.2, ?_, ?_⟩
    · rw [heq, hdec p hs, hcx]
      rfl
    · rcases hcc with h | h
      · exact Or.inr (Or.inl h)
      · exact Or.inr (Or.inr h)

lemma joinSepList_head {sep : List Char} {e : List Char}
    {rest : List (List Char)} {c : Char} {x : List Char} (he : e = c :: x) :
    ∃ y, joinSepList sep (e :: rest) = c :: y := by
  cases rest with
  | nil => exact ⟨x, by rw [show joinSepList sep [e] = e from rfl, he]⟩
  | cons e2 rest2 =>
    refine ⟨x ++ (sep ++ joinSepList sep (e2 :: rest2)), ?_⟩
    rw [show joinSepList sep (e :: e2 :: rest2) =
      e ++ (sep ++ joinSepList sep (e2 :: rest2)) from rfl, he]
    rfl

lemma renderShorthand_not_pyWs (ts : List (Option (ℤ × ℕ) × (ℤ × ℕ))) :
    ∀ c ∈ renderShorthand ts, isPyWs c = false := by
  intro c hc
  rcases mem_joinSepList hc with h | ⟨e, he, hce⟩
  · simp only [List.mem_singleton] at h
    rw [h]
    decide
  · obtain ⟨t, _, rfl⟩ := List.mem_map.mp he
    exact renderShorthandEntry_not_pyWs t c hce

lemma parse_tiers_renderShorthand (ts : List (Option (ℤ × ℕ) × (ℤ × ℕ)))
    (h : ts ≠ []) :
    parse_tiers (renderShorthand ts) = .ok (ts.map toTierOf) := by
  obtain ⟨t, rest, rfl⟩ : ∃ t rest, ts = t :: rest := by
    cases ts with
    | nil => exact absurd rfl h
    | cons t rest => exact ⟨t, rest, rfl⟩
  obtain ⟨c, x, hcx, hcc⟩ := renderShorthandEntry_head t
  obtain ⟨y, hy⟩ : ∃ y, renderShorthand (t :: rest) = c :: y := by
    unfold renderShorthand
    rw [List.map_cons]
    exact joinSepList_head hcx
  have h1 : renderShorthand (t :: rest) ≠ [] := by
    rw [hy]
    simp
  have hstrip : pyStrip (renderShorthand (t :: rest)) =
      renderShorthand (t :: rest) :=
    pyStrip_eq_self (renderShorthand_not_pyWs (t :: rest))
  have h2 : (pyStrip (renderShorthand (t :: rest))).head? ≠ some '[' := by
    rw [hstrip, hy]
    simp only [List.head?_cons]
    intro he
    have hce : c = '[' := Option.some.inj he
    rcases hcc with h | h | h
    · rw [hce] at h
      exact absurd h (by decide)
    · exact absurd hce (isDigit_ne h '[' (by decide))
    · rw [hce] at h
      exact absurd h (by decide)
  rw [parse_tiers_shorthand h1 h2, hstrip]
  unfold renderShorthand
  rw [pySplit_joinSepList (by simp) (by
    intro e he
    obtain ⟨u, _, rfl⟩ := List.mem_map.mp he
    exact renderShorthandEntry_no_comma u)]
  rw [parseShorthandParts_render]

/-! ## JSON round-trip -/

lemma expectChar_cons_self (c : Char) (rest : List Char) :
    expectChar c (c :: rest) = some rest := by
  simp [expectChar]

lemma expectChar_cons_ne {x c : Char} (h : x ≠ c) (rest : List Char) :
    expectChar c (x :: rest) = none := by
  simp [expectChar, h]

lemma skipWs_cons_of {c : Char} (hc : isJsonWs c = false) (t : List Char) :
    skipWs (c :: t) = c :: t := by
  simp [skipWs, List.dropWhile_cons, hc]

lemma takeWhile_append_cons {p : Char → Bool} {xs : List Char} {y : Char}
    {ys : List Char} (hx : ∀ x ∈ xs, p x = true) (hy : p y = false) :
    (xs ++ y :: ys).takeWhile p = xs := by
  induction xs with
  | nil => simp [List.takeWhile_cons, hy]
  | cons x rest ih =>
    rw [List.cons_append, List.takeWhile_cons,
      hx x (List.mem_cons_self x rest)]
    rw [ih (fun z hz => hx z (List.mem_cons_of_mem x hz))]
    simp

lemma dropWhile_append_cons {p : Char → Bool} {xs : List Char} {y : Char}
    {ys : List Char} (hx : ∀ x ∈ xs, p x = true) (hy : p y = false) :
    (xs ++ y :: ys).dropWhile p = y :: ys := by
  induction xs with
  | nil => simp [List.dropWhile_cons, hy]
  | cons x rest ih =>
    rw [List.cons_append, List.dropWhile_cons,
      hx x (List.mem_cons_self x rest)]
    rw [ih (fun z hz => hx z (List.mem_cons_of_mem x hz))]
    simp

lemma jsonNumber_render (m : ℤ) (k : ℕ) {y : Char} {ys : List Char}
    (hy : isNumChar y = false) :
    jsonNumber (renderDec m k ++ y :: ys) = some (decValue m k, y :: ys) := by
  unfold jsonNumber
  rw [takeWhile_append_cons (renderDec_numChar m k) hy,
    dropWhile_append_cons (renderDec_numChar m k) hy]
  rw [if_neg (by simpa using renderDec_ne_nil m k), parseFloat_renderDec]
  rfl

lemma jsonElement_null (rest : List Char) :
    jsonElement ("null".data ++ rest) = some (none, rest) := by
  unfold jsonElement
  rw [if_pos (by
    rw [show (4 : ℕ) = ("null".data).length from rfl, List.take_left])]
  rw [show (4 : ℕ) = ("null".data).length from rfl, List.drop_left]

lemma jsonElement_renderDec (m : ℤ) (k : ℕ) {y : Char} {ys : List Char}
    (hy : isNumChar y = false) :
    jsonElement (renderDec m k ++ y :: ys) =
      some (some (decValue m k), y :: ys) := by
  obtain ⟨c, x, hcx, hcc⟩ := renderDec_head m k
  unfold jsonElement
  rw [if_neg (by
    rw [hcx, List.cons_append]
    intro he
    rw [show (4 : ℕ) = 3 + 1 from rfl, List.take_succ_cons] at he
    have hcn : c = 'n' := (List.cons.injEq _ _ _ _).mp he |>.1
    rcases hcc with h | h
    · rw [hcn] at h
      exact absurd h (by decide)
    · rw [hcn] at h
      exact absurd h (by decide))]
  rw [jsonNumber_render m k hy]
  rfl

lemma isJsonWs_of_renderDec_head {m : ℤ} {k : ℕ} {c : Char} {x : List Char}
    (hcx : renderDec m k = c :: x) : isJsonWs c = false := by
  have hmem : c ∈ renderDec m k := by rw [hcx]; exact List.mem_cons_self c x
  rcases renderDec_chars m k c hmem with h | h | h
  · exact isDigit_not_jsonWs h
  · rw [h]; decide
  · rw [h]; decide

lemma jsonPair_render (s : Option (ℤ × ℕ)) (rr : ℤ × ℕ) (rest : List Char) :
    jsonPair (renderJsonPair (s, rr) ++ rest) =
      some (toTierOf (s, rr), rest) := by
  have hin : renderJsonPair (s, rr) ++ rest =
      '[' :: (renderJsonItem s ++
        ',' :: (renderDec rr.1 rr.2 ++ (']' :: rest))) := by
    simp [renderJsonPair]
  have helem : jsonElement (skipWs (renderJsonItem s ++
      ',' :: (renderDec rr.1 rr.2 ++ (']' :: rest)))) =
      some (s.map (fun p => decValue p.1 p.2),
        ',' :: (renderDec rr.1 rr.2 ++ (']' :: rest))) := by
    cases s with
    | none =>
      rw [show renderJsonItem none = "null".data from rfl]
      rw [show ("null".data ++ ',' :: (renderDec rr.1 rr.2 ++ (']' :: rest))) =
        'n' :: ("ull".data ++ ',' :: (renderDec rr.1 rr.2 ++ (']' :: rest)))
        from rfl]
      rw [skipWs_cons_of (by decide)]
      exact jsonElement_null _
    | some p =>
      rw [show renderJsonItem (some p) = renderDec p.1 p.2 from rfl]
      obtain ⟨c, x, hcx, _⟩ := renderDec_head p.1 p.2
      rw [hcx, List.cons_append,
        skipWs_cons_of (isJsonWs_of_renderDec_head hcx), ← List.cons_append,
        ← hcx, jsonElement_renderDec p.1 p.2 (by decide)]
      rfl
  have hnum : jsonNumber (skipWs (renderDec rr.1 rr.2 ++ (']' :: rest))) =
      some (decValue rr.1 rr.2, ']' :: rest) := by
    obtain ⟨c2, x2, hcx2, _⟩ := renderDec_head rr.1 rr.2
    rw [hcx2, List.cons_append,
      skipWs_cons_of (isJsonWs_of_renderDec_head hcx2), ← List.cons_append,
      ← hcx2, jsonNumber_render rr.1 rr.2 (by decide)]
  rw [hin]
  unfold jsonPair
  simp only [skipWs_cons_of (show isJsonWs '[' = false by decide),
    expectChar_cons_self, helem,
    skipWs_cons_of (show isJsonWs ',' = false by decide), hnum,
    skipWs_cons_of (show isJsonWs ']' = false by decide)]
  rfl

lemma renderJsonPair_head (t : Option (ℤ × ℕ) × (ℤ × ℕ)) :
    ∃ y, renderJsonPair t = '[' :: y := by
  obtain ⟨s, rr⟩ := t
  exact ⟨_, rfl⟩

lemma jsonPairs_render (ts : List (Option (ℤ × ℕ) × (ℤ × ℕ))) :
    ∀ fuel, ts ≠ [] → ts.length ≤ fuel →
    jsonPairs fuel (joinSepList [','] (ts.map renderJsonPair) ++ [']']) =
      some (ts.map toTierOf) := by
  induction ts with
  | nil => intro fuel h _; exact absurd rfl h
  | cons t rest ih =>
    intro fuel _ hlen
    obtain ⟨f, rfl⟩ : ∃ f, fuel = f + 1 :=
      ⟨fuel - 1, by simp at hlen; omega⟩
    obtain ⟨s, rr⟩ := t
    cases rest with
    | nil =>
      rw [List.map_cons, List.map_nil,
        show joinSepList [','] [renderJsonPair (s, rr)] =
          renderJsonPair (s, rr) from rfl]
      unfold jsonPairs
      simp only [jsonPair_render s rr [']'],
        skipWs_cons_of (show isJsonWs ']' = false by decide),
        expectChar_cons_self]
      simp [skipWs]
    | cons t2 rest2 =>
      have hJ : joinSepList [',']
          ((renderJsonPair (s, rr)) :: (t2 :: rest2).map renderJsonPair) =
          renderJsonPair (s, rr) ++
            ([','] ++ joinSepList [','] ((t2 :: rest2).map renderJsonPair)) := by
        cases hmap : (t2 :: rest2).map renderJsonPair with
        | nil => simp at hmap
        | cons q qs => rfl
      rw [List.map_cons, hJ]
      rw [show (renderJsonPair (s, rr) ++
          ([','] ++ joinSepList [','] ((t2 :: rest2).map renderJsonPair))) ++ [']'] =
          renderJsonPair (s, rr) ++
            (',' :: (joinSepList [','] ((t2 :: rest2).map renderJsonPair) ++ [']']))
        by simp]
      unfold jsonPairs
      simp only [jsonPair_render s rr
          (',' :: (joinSepList [','] ((t2 :: rest2).map renderJsonPair) ++ [']'])),
        skipWs_cons_of (show isJsonWs ',' = false by decide),
        expectChar_cons_ne (show ',' ≠ ']' by decide),
        expectChar_cons_self]
      rw [ih f (by simp) (by simp at hlen ⊢; omega)]
      simp

lemma joinSep_pairs_len (ts : List (Option (ℤ × ℕ) × (ℤ × ℕ)))
    (h : ts ≠ []) :
    ts.length ≤ (joinSepList [','] (ts.map renderJsonPair)).length := by
  induction ts with
  | nil => exact absurd rfl h
  | cons t rest ih =>
    cases rest with
    | nil =>
      obtain ⟨y, hy⟩ := renderJsonPair_head t
      rw [List.map_cons, List.map_nil,
        show joinSepList [','] [renderJsonPair t] = renderJsonPair t from rfl,
        hy]
      simp
    | cons t2 rest2 =>
      have hJ : joinSepList [',']
          ((renderJsonPair t) :: (t2 :: rest2).map renderJsonPair) =
          renderJsonPair t ++
            ([','] ++ joinSepList [','] ((t2 :: rest2).map renderJsonPair)) := by
        cases hmap : (t2 :: rest2).map renderJsonPair with
        | nil => simp at hmap
        | cons q qs => rfl
      rw [List.map_cons, hJ]
      have hrec := ih (by simp)
      simp only [List.length_append, List.length_cons, List.length_singleton]
      simp only [List.length_cons] at hrec
      omega

lemma renderJsonPair_not_pyWs (t : Option (ℤ × ℕ) × (ℤ × ℕ)) :
    ∀ c ∈ renderJsonPair t, isPyWs c = false := by
  obtain ⟨s, rr⟩ := t
  intro c hc
  rw [renderJsonPair] at hc
  rcases List.mem_cons.mp hc with rfl | hc
  · decide
  · rcases List.mem_append.mp hc with hc | hc
    · cases s with
      | none =>
        simp only [renderJsonItem] at hc
        have hc2 : c ∈ ['n', 'u', 'l', 'l'] := hc
        fin_cases hc2 <;> decide
      | some p =>
        exact renderDec_not_pyWs p.1 p.2 c hc
    · rcases List.mem_cons.mp hc with rfl | hc
      · decide
      · rcases List.mem_append.mp hc with hc | hc
        · exact renderDec_not_pyWs rr.1 rr.2 c hc
        · rcases List.mem_cons.mp hc with rfl | hc
          · decide
          · simp at hc

lemma jsonParseTiers_render (ts : List (Option (ℤ × ℕ) × (ℤ × ℕ)))
    (h : ts ≠ []) :
    jsonParseTiers (renderJson ts) = some (ts.map toTierOf) := by
  obtain ⟨t, rest, rfl⟩ : ∃ t rest, ts = t :: rest := by
    cases ts with
    | nil => exact absurd rfl h
    | cons t rest => exact ⟨t, rest, rfl⟩
  obtain ⟨y, hy⟩ := renderJsonPair_head t
  have hJhead : joinSepList [','] ((t :: rest).map renderJsonPair) ++ [']'] =
      '[' :: (y ++ (if rest = [] then [] else
        [','] ++ joinSepList [','] (rest.map renderJsonPair)) ++ [']']) := by
    cases rest with
    | nil =>
      rw [List.map_cons, List.map_nil,
        show joinSepList [','] [renderJsonPair t] = renderJsonPair t from rfl,
        hy]
      simp
    | cons t2 rest2 =>
      have hJ : joinSepList [',']
          ((renderJsonPair t) :: (t2 :: rest2).map renderJsonPair) =
          renderJsonPair t ++
            ([','] ++ joinSepList [','] ((t2 :: rest2).map renderJsonPair)) := by
        cases hmap : (t2 :: rest2).map renderJsonPair with
        | nil => simp at hmap
        | cons q qs => rfl
      rw [List.map_cons, hJ, hy]
      simp
  unfold jsonParseTiers
  rw [renderJson, skipWs_cons_of (show isJsonWs '[' = false by decide),
    expectChar_cons_self]
  rw [hJhead]
  simp only [skipWs_cons_of (show isJsonWs '[' = false by decide),
    expectChar_cons_ne (show '[' ≠ ']' by decide)]
  rw [← hJhead]
  have hfuel := joinSep_pairs_len (t :: rest) (by simp)
  rw [jsonPairs_render (t :: rest) _ (by simp) (by
    simp only [List.length_append, List.length_singleton]
    omega)]

lemma parse_tiers_renderJson (ts : List (Option (ℤ × ℕ) × (ℤ × ℕ)))
    (h : ts ≠ []) :
    parse_tiers (renderJson ts) = .ok (ts.map toTierOf) := by
  have hne : renderJson ts ≠ [] := by
    rw [renderJson]
    simp
  have hstrip : pyStrip (renderJson ts) = renderJson ts := by
    apply pyStrip_eq_self
    intro c hc
    rw [renderJson] at hc
    rcases List.mem_cons.mp hc with rfl | hc
    · decide
    · rcases List.mem_append.mp hc with hc | hc
      · rcases mem_joinSepList hc with hm | ⟨e, he, hce⟩
        · simp only [List.mem_singleton] at hm
          rw [hm]
          decide
        · obtain ⟨u, _, rfl⟩ := List.mem_map.mp he
          exact renderJsonPair_not_pyWs u c hce
      · rcases List.mem_cons.mp hc with rfl | hc
        · decide
        · simp at hc
  have hhead : (pyStrip (renderJson ts)).head? = some '[' := by
    rw [hstrip, renderJson]
    rfl
  rw [parse_tiers_json hne hhead, hstrip, jsonParseTiers_render ts h]

/-- C7: the two grammars of `parse_tiers` are equivalent: the JSON
rendering and the shorthand rendering of any (non-empty, decimal) tier
list parse to identical structured tier lists. -/
theorem c7_roundtrip (ts : List (Option (ℤ × ℕ) × (ℤ × ℕ))) (h : ts ≠ []) :
    parse_tiers (renderJson ts) = .ok (ts.map toTierOf) ∧
    parse_tiers (renderShorthand ts) = .ok (ts.map toTierOf) :=
  ⟨parse_tiers_renderJson ts h, parse_tiers_renderShorthand ts h⟩

/-- Witness for C7 at the spec's example tiers
(`100@0.2, *@0.3` vs `[[100,0.2],[null,0.3]]`). -/
theorem c7_witness :
    parse_tiers (renderJson [(some (100, 0), (2, 1)), (none, (3, 1))]) =
      .ok ([(some (100, 0), (2, 1)), (none, (3, 1))].map toTierOf) ∧
    parse_tiers (renderShorthand [(some (100, 0), (2, 1)), (none, (3, 1))]) =
      .ok ([(some (100, 0), (2, 1)), (none, (3, 1))].map toTierOf) :=
  c7_roundtrip [(some (100, 0), (2, 1)), (none, (3, 1))] (by simp)

/-! ## Thousands grouping -/

/-- Check the comma groups of a reversed integer part: groups of three
digits from the least significant end, with a final (most significant)
group of one to three digits. -/
def groupsRevOk : List (List Char) → Bool
  | [] => false
  | [p] => decide (1 ≤ p.length) && decide (p.length ≤ 3) && p.all Char.isDigit
  | p :: ps => (decide (p.length = 3) && p.all Char.isDigit) && groupsRevOk ps

/-- `l` is a comma-grouped digit string (thousands separators every
three digits from the right). -/
def thousandsGrouped (l : List Char) : Bool :=
  groupsRevOk (pySplit ',' l.reverse)

lemma isDigit_ne_comma {c : Char} (h : c.isDigit = true) : c ≠ ',' :=
  isDigit_ne h ',' (by decide)

lemma groupsRevOk_group3Rev (n : ℕ) : ∀ rds : List Char, rds.length ≤ n →
    rds ≠ [] → (∀ c ∈ rds, c.isDigit = true) →
    groupsRevOk (pySplit ',' (group3Rev rds)) = true := by
  induction n with
  | zero =>
    intro rds hlen hne _
    rw [List.length_eq_zero.mp (Nat.le_zero.mp hlen)] at hne
    exact absurd rfl hne
  | succ n ih =>
    intro rds hlen hne hdig
    match rds with
    | [a] =>
      rw [show group3Rev [a] = [a] from rfl,
        pySplit_no_sep (by
          intro hc
          exact isDigit_ne_comma (hdig ',' hc) rfl)]
      simp [groupsRevOk, hdig]
    | [a, b] =>
      rw [show group3Rev [a, b] = [a, b] from rfl,
        pySplit_no_sep (by
          intro hc
          exact isDigit_ne_comma (hdig ',' hc) rfl)]
      simp [groupsRevOk, hdig]
    | [a, b, c] =>
      rw [show group3Rev [a, b, c] = [a, b, c] from rfl,
        pySplit_no_sep (by
          intro hc
          exact isDigit_ne_comma (hdig ',' hc) rfl)]
      simp [groupsRevOk, hdig]
    | a :: b :: c :: d :: rest =>
      rw [show group3Rev (a :: b :: c :: d :: rest) =
        a :: b :: c :: ',' :: group3Rev (d :: rest) from rfl]
      rw [show (a :: b :: c :: ',' :: group3Rev (d :: rest) : List Char) =
        [a, b, c] ++ ',' :: group3Rev (d :: rest) from rfl]
      rw [pySplit_append_sep (by
        intro hc
        simp only [List.mem_cons, List.not_mem_nil, or_false] at hc
        have hdd : (',' : Char).isDigit = true := by
          rcases hc with h | h | h
          · rw [h]; exact hdig a (by simp)
          · rw [h]; exact hdig b (by simp)
          · rw [h]; exact hdig c (by simp)
        exact absurd hdd (by decide))]
      have hrec := ih (d :: rest) (by simp at hlen ⊢; omega) (by simp)
        (fun x hx => hdig x (List.mem_cons_of_mem a (List.mem_cons_of_mem b
          (List.mem_cons_of_mem c hx))))
      cases hps : pySplit ',' (group3Rev (d :: rest)) with
      | nil => exact absurd hps (pySplit_ne_nil _ _)
      | cons q qs =>
        rw [hps] at hrec
        simp only [groupsRevOk]
        refine (Bool.and_eq_true _ _).mpr ⟨?_, hrec⟩
        refine (Bool.and_eq_true _ _).mpr ⟨by simp, ?_⟩
        rw [List.all_eq_true]
        intro x hx
        simp only [List.mem_cons, List.not_mem_nil, or_false] at hx
        rcases hx with h | h | h
        · rw [h]; exact hdig a (by simp)
        · rw [h]; exact hdig b (by simp)
        · rw [h]; exact hdig c (by simp)

lemma thousandsGrouped_group3 {ds : List Char} (hne : ds ≠ [])
    (hdig : ∀ c ∈ ds, c.isDigit = true) :
    thousandsGrouped (group3 ds) = true := by
  unfold thousandsGrouped group3
  rw [List.reverse_reverse]
  exact groupsRevOk_group3Rev ds.reverse.length ds.reverse le_rfl
    (by simpa using hne) (fun c hc => hdig c (List.mem_reverse.mp hc))

lemma group3Rev_filter (n : ℕ) : ∀ rds : List Char,
    rds.length ≤ n → (∀ c ∈ rds, c.isDigit = true) →
    (group3Rev rds).filter (fun c => !decide (c = ',')) = rds := by
  induction n with
  | zero =>
    intro rds hlen _
    rw [List.length_eq_zero.mp (Nat.le_zero.mp hlen)]
    rfl
  | succ n ih =>
    intro rds hlen hdig
    match rds with
    | [] => rfl
    | [a] =>
      rw [show group3Rev [a] = [a] from rfl]
      simp [List.filter, isDigit_ne_comma (hdig a (by simp))]
    | [a, b] =>
      rw [show group3Rev [a, b] = [a, b] from rfl]
      simp [List.filter, isDigit_ne_comma (hdig a (by simp)),
        isDigit_ne_comma (hdig b (by simp))]
    | [a, b, c] =>
      rw [show group3Rev [a, b, c] = [a, b, c] from rfl]
      simp [List.filter, isDigit_ne_comma (hdig a (by simp)),
        isDigit_ne_comma (hdig b (by simp)),
        isDigit_ne_comma (hdig c (by simp))]
    | a :: b :: c :: d :: rest =>
      rw [show group3Rev (a :: b :: c :: d :: rest) =
        a :: b :: c :: ',' :: group3Rev (d :: rest) from rfl]
      have hrec := ih (d :: rest) (by simp at hlen ⊢; omega)
        (fun x hx => hdig x (List.mem_cons_of_mem a (List.mem_cons_of_mem b
          (List.mem_cons_of_mem c hx))))
      rw [List.filter_cons_of_pos (by
          simp [isDigit_ne_comma (hdig a (by simp))]),
        List.filter_cons_of_pos (by
          simp [isDigit_ne_comma (hdig b (by simp))]),
        List.filter_cons_of_pos (by
          simp [isDigit_ne_comma (hdig c (by simp))]),
        List.filter_cons_of_neg (by simp), hrec]

lemma group3_filter {ds : List Char} (hdig : ∀ c ∈ ds, c.isDigit = true) :
    (group3 ds).filter (fun c => !decide (c = ',')) = ds := by
  unfold group3
  rw [List.filter_reverse,
    group3Rev_filter ds.reverse.length ds.reverse le_rfl
      (fun c hc => hdig c (List.mem_reverse.mp hc)),
    List.reverse_reverse]

lemma natToDigitsAux_length (fuel : ℕ) : ∀ n k, n < fuel → n < 10 ^ k →
    1 ≤ k → (natToDigitsAux fuel n).length ≤ k := by
  induction fuel with
  | zero => intro n k h _ _; omega
  | succ fuel ih =>
    intro n k hn hnk hk
    by_cases h10 : n < 10
    · simp only [natToDigitsAux, h10, if_true, List.length_singleton]
      omega
    · simp only [natToDigitsAux, h10, if_false, List.length_append,
        List.length_singleton]
      have hk2 : 2 ≤ k := by
        by_contra hcon
        push_neg at hcon
        interval_cases k
        · simp at hnk
          omega
      have hdiv10 : n / 10 < 10 ^ (k - 1) := by
        apply Nat.div_lt_of_lt_mul
        have hpow : 10 ^ (k - 1) * 10 = 10 ^ k := by
          rw [← pow_succ]
          congr 1
          omega
        omega
      have hfuel : n / 10 < fuel := by
        have := Nat.div_lt_self (show 0 < n by omega) (show 1 < 10 by omega)
        omega
      have := ih (n / 10) (k - 1) hfuel hdiv10 (by omega)
      omega

lemma natToDigits_length_le {n k : ℕ} (hn : n < 10 ^ k) (hk : 1 ≤ k) :
    (natToDigits n).length ≤ k :=
  natToDigitsAux_length (n + 1) n k (Nat.lt_succ_self n) hn hk

lemma round_nonneg_q {q : ℚ} (h : 0 ≤ q) : 0 ≤ round q := by
  rw [round_eq]
  exact Int.le_floor.mpr (by push_cast; linarith)

lemma commaFixed2_spec (q : ℚ) (hq : 0 ≤ q) :
    ∃ ip fr, commaFixed2 q = ip ++ '.' :: fr ∧
      fr.length = 2 ∧ (∀ c ∈ fr, c.isDigit = true) ∧
      thousandsGrouped ip = true ∧
      digitsVal (ip.filter (fun c => !decide (c = ','))) * 100 + digitsVal fr =
        (round (q * 100)).toNat := by
  have hn : 0 ≤ round (q * 100) := round_nonneg_q (by positivity)
  refine ⟨group3 (natToDigits ((round (q * 100)).natAbs / 100)),
    padZeros 2 (natToDigits ((round (q * 100)).natAbs % 100)),
    ?_, ?_, ?_, ?_, ?_⟩
  · show ((if round (q * 100) < 0 then ['-'] else []) ++
      group3 (natToDigits ((round (q * 100)).natAbs / 100)) ++
      '.' :: padZeros 2 (natToDigits ((round (q * 100)).natAbs % 100))) = _
    rw [if_neg (not_lt.mpr hn)]
    simp
  · rw [padZeros_length]
    have hlt : (round (q * 100)).natAbs % 100 < 10 ^ 2 := by
      have := Nat.mod_lt (round (q * 100)).natAbs (show 0 < 100 by omega)
      omega
    have := natToDigits_length_le hlt (by omega)
    omega
  · exact padZeros_digits (natToDigits_digits _)
  · exact thousandsGrouped_group3 (natToDigits_ne_nil _) (natToDigits_digits _)
  · rw [group3_filter (natToDigits_digits _), natToDigits_val,
      digitsVal_padZeros, natToDigits_val]
    omega

lemma fixedChars_spec (k : ℕ) (hk : 1 ≤ k) (q : ℚ) (hq : 0 ≤ q) :
    ∃ ip fr, fixedChars k q = ip ++ '.' :: fr ∧
      fr.length = k ∧ (∀ c ∈ fr, c.isDigit = true) ∧
      (∀ c ∈ ip, c.isDigit = true) ∧
      digitsVal ip * 10 ^ k + digitsVal fr = (round (q * 10 ^ k)).toNat := by
  have hn : 0 ≤ round (q * 10 ^ k) := round_nonneg_q (by positivity)
  refine ⟨natToDigits ((round (q * 10 ^ k)).natAbs / 10 ^ k),
    padZeros k (natToDigits ((round (q * 10 ^ k)).natAbs % 10 ^ k)),
    ?_, ?_, ?_, ?_, ?_⟩
  · show ((if round (q * 10 ^ k) < 0 then ['-'] else []) ++
      natToDigits ((round (q * 10 ^ k)).natAbs / 10 ^ k) ++
      '.' :: padZeros k (natToDigits ((round (q * 10 ^ k)).natAbs % 10 ^ k))) = _
    rw [if_neg (not_lt.mpr hn)]
    simp
  · rw [padZeros_length]
    have hpow : 0 < 10 ^ k := by positivity
    have hlt : (round (q * 10 ^ k)).natAbs % 10 ^ k < 10 ^ k :=
      Nat.mod_lt _ hpow
    have := natToDigits_length_le hlt hk
    omega
  · exact padZeros_digits (natToDigits_digits _)
  · exact natToDigits_digits _
  · rw [natToDigits_val, digitsVal_padZeros, natToDigits_val]
    have hdm2 : ((round (q * 10 ^ k)).natAbs / 10 ^ k) * 10 ^ k +
        (round (q * 10 ^ k)).natAbs % 10 ^ k =
        (round (q * 10 ^ k)).natAbs := by
      rw [mul_comm]
      exact Nat.div_add_mod _ _
    omega

/-! ## Claim C8: the breakdown formatter -/

/-- C8 (amended): `format_breakdown` renders a header, one line per
entry (`  Tier <i>: <kwh to 3 decimals> kWh Ã— <rate> = <cost>`, with
the multiplication sign appearing as the source's literal character
pair `U+00C3 U+2014`), a blank separator and the three total lines,
joined by the source's separator token `"/n"`; every currency value is
the symbol, thousands-grouped integer digits, and exactly two fraction
digits; and `format_currency 1234.5 "$" = "$1,234.50"`. -/
theorem c8_amended_format :
    (∀ res sym, format_breakdown res sym =
      List.intercalate "/n".data
        ("Breakdown:".data :: res.breakdown.map (entryLine sym) ++ [[]] ++
          ["Energy cost = ".data ++ format_currency res.energy_cost sym] ++
          ["Fixed fee   = ".data ++ format_currency res.fixed_fee sym] ++
          ["Total bill  = ".data ++ format_currency res.total sym])) ∧
    (∀ sym item, entryLine sym item =
      "  Tier ".data ++ natToDigits item.tier ++ ": ".data ++
        fixedChars 3 item.kwh ++ " kWh Ã— ".data ++
        format_currency item.rate sym ++ " = ".data ++
        format_currency (item.cost.getD (item.kwh * item.rate)) sym) ∧
    (∀ q : ℚ, 0 ≤ q → ∃ ip fr, fixedChars 3 q = ip ++ '.' :: fr ∧
      fr.length = 3 ∧ (∀ c ∈ fr, c.isDigit = true) ∧
      (∀ c ∈ ip, c.isDigit = true) ∧
      digitsVal ip * 10 ^ 3 + digitsVal fr = (round (q * 10 ^ 3)).toNat) ∧
    (∀ (v : ℚ) (sym : List Char), 0 ≤ v → ∃ ip fr,
      format_currency v sym = sym ++ (ip ++ '.' :: fr) ∧
      fr.length = 2 ∧ (∀ c ∈ fr, c.isDigit = true) ∧
      thousandsGrouped ip = true ∧
      digitsVal (ip.filter (fun c => !decide (c = ','))) * 100 + digitsVal fr =
        (round (v * 100)).toNat) ∧
    format_currency (2469/2) "$".data = "$1,234.50".data := by
  refine ⟨fun res sym => rfl, fun sym item => rfl, ?_, ?_, ?_⟩
  · intro q hq
    exact fixedChars_spec 3 (by omega) q hq
  · intro v sym hv
    obtain ⟨ip, fr, heq, h2, h3, h4, h5⟩ := commaFixed2_spec v hv
    exact ⟨ip, fr, by rw [format_currency, heq],
      h2, h3, h4, h5⟩
  · have hr : round ((2469/2 : ℚ) * 100) = 123450 := by norm_num [round_eq]
    simp only [format_currency, commaFixed2, hr]
    decide

/-- Witness for C8: the amended claim at `1234.5` with symbol `$`. -/
theorem c8_witness :
    format_currency (2469/2) "$".data = "$1,234.50".data ∧
    ∃ ip fr, format_currency (2469/2) "$".data = "$".data ++ (ip ++ '.' :: fr) ∧
      fr.length = 2 ∧ (∀ c ∈ fr, c.isDigit = true) ∧
      thousandsGrouped ip = true ∧
      digitsVal (ip.filter (fun c => !decide (c = ','))) * 100 + digitsVal fr =
        (round ((2469/2 : ℚ) * 100)).toNat :=
  ⟨c8_amended_format.2.2.2.2, c8_amended_format.2.2.2.1 (2469/2) ("$".data)
    (by norm_num)⟩

/-- Counterexample to C8 as stated: the entry line's multiplication
sign is not `×` (U+00D7) — the source file's literal is the mojibake
pair `Ã—` (U+00C3 U+2014), so the rendered text differs from the
claimed template at that character. -/
theorem c8_counterexample :
    format_breakdown ⟨[⟨1, 100, 1/5, some 20⟩], 20, 0, 20⟩ "$".data =
      List.intercalate "/n".data
        ["Breakdown:".data,
         "  Tier 1: 100.000 kWh Ã— $0.20 = $20.00".data,
         [],
         "Energy cost = $20.00".data,
         "Fixed fee   = $0.00".data,
         "Total bill  = $20.00".data] ∧
    format_breakdown ⟨[⟨1, 100, 1/5, some 20⟩], 20, 0, 20⟩ "$".data ≠
      List.intercalate "/n".data
        ["Breakdown:".data,
         "  Tier 1: 100.000 kWh × $0.20 = $20.00".data,
         [],
         "Energy cost = $20.00".data,
         "Fixed fee   = $0.00".data,
         "Total bill  = $20.00".data] := by
  have h1 : fixedChars 3 (100 : ℚ) = "100.000".data := by
    have hr : round ((100 : ℚ) * (10 : ℚ) ^ 3) = 100000 := by
      norm_num [round_eq]
    simp only [fixedChars, hr]
    decide
  have h2 : commaFixed2 (1/5 : ℚ) = "0.20".data := by
    have hr : round ((1/5 : ℚ) * 100) = 20 := by norm_num [round_eq]
    simp only [commaFixed2, hr]
    decide
  have h3 : commaFixed2 (20 : ℚ) = "20.00".data := by
    have hr : round ((20 : ℚ) * 100) = 2000 := by norm_num [round_eq]
    simp only [commaFixed2, hr]
    decide
  have h4 : commaFixed2 (0 : ℚ) = "0.00".data := by
    have hr : round ((0 : ℚ) * 100) = 0 := by norm_num [round_eq]
    simp only [commaFixed2, hr]
    decide
  have heq : format_breakdown ⟨[⟨1, 100, 1/5, some 20⟩], 20, 0, 20⟩ "$".data =
      List.intercalate "/n".data
        ["Breakdown:".data,
         "  Tier 1: 100.000 kWh Ã— $0.20 = $20.00".data,
         [],
         "Energy cost = $20.00".data,
         "Fixed fee   = $0.00".data,
         "Total bill  = $20.00".data] := by
    simp only [format_breakdown, entryLine, format_currency, List.map_cons,
      List.map_nil, Option.getD_some, h1, h2, h3, h4]
    decide
  refine ⟨heq, ?_⟩
  rw [heq]
  decide
